import Mathlib

/-!
Verification of the pihole-sync synchronization engine.

This file gives a shallow embedding, in Lean 4, of the pure logic of the
pihole-sync repository and proves (or refutes) the stated properties of its
specification against that embedding.

Conventions of the embedding:
* Rust strings are modelled as lists of characters (`Str := List Char`); the
  repository only manipulates ASCII configuration paths and host names, for
  which Rust's byte-based `len`/`chars().nth` agree with character counts.
* `serde_json::Value` is modelled by the inductive type `Json`; `serde_json`'s
  object map (a `BTreeMap`, iterated in key order) is modelled as an
  association list in iteration order.
* `HashSet`/`HashMap` lookups are modelled by list lookups with the same
  observable behaviour (`HashMap::from_iter` keeps the last binding of a
  repeated key).
* Asynchronous remote calls are modelled by passing their outcomes in as
  explicit inputs and collecting the performed remote writes as explicit
  outputs, so that each orchestration step becomes a pure state-transition
  function.
* 64-bit hashing: `std::collections::hash_map::DefaultHasher` is SipHash-1-3
  with both keys zero; it is implemented here bit-faithfully over `Nat`
  (all words reduced modulo `2 ^ 64`).
-/

namespace PiholeSync

/-! ## Character-list strings and the string helpers used by the source -/

abbrev Str := List Char

/-- Rust `str::split(c)`: the list of chunks between occurrences of `c`
(`"".split(c)` yields one empty chunk, exactly as in Rust). -/
def splitCh (c : Char) : Str → List Str
  | [] => [[]]
  | x :: xs =>
    match splitCh c xs with
    | [] => [[]]
    | h :: t => if x = c then [] :: h :: t else (x :: h) :: t

/-- Rust `Vec::join(sep)` for a one-character separator. -/
def joinCh (c : Char) : List Str → Str
  | [] => []
  | [s] => s
  | s :: rest => s ++ c :: joinCh c rest

/-- Decimal rendering of a natural number, as Rust's `format!("{}", n)`. -/
def natToStr (n : Nat) : Str := Nat.toDigits 10 n

/-! ## JSON values (`serde_json::Value`) -/

/-- `serde_json::Value`. Numbers are modelled as integers: none of the code
under verification inspects numeric payloads. -/
inductive Json where
  | null : Json
  | bool (b : Bool) : Json
  | num (n : Int) : Json
  | str (s : Str) : Json
  | arr (xs : List Json) : Json
  | obj (fields : List (Str × Json)) : Json

mutual

def jsonDecEq : (a b : Json) → Decidable (a = b)
  | .null, .null => isTrue rfl
  | .bool a, .bool b =>
      match decEq a b with
      | isTrue h => isTrue (by rw [h])
      | isFalse h => isFalse (fun hh => h (Json.bool.inj hh))
  | .num a, .num b =>
      match decEq a b with
      | isTrue h => isTrue (by rw [h])
      | isFalse h => isFalse (fun hh => h (Json.num.inj hh))
  | .str a, .str b =>
      match decEq a b with
      | isTrue h => isTrue (by rw [h])
      | isFalse h => isFalse (fun hh => h (Json.str.inj hh))
  | .arr a, .arr b =>
      match jsonDecEqList a b with
      | isTrue h => isTrue (by rw [h])
      | isFalse h => isFalse (fun hh => h (Json.arr.inj hh))
  | .obj a, .obj b =>
      match jsonDecEqFields a b with
      | isTrue h => isTrue (by rw [h])
      | isFalse h => isFalse (fun hh => h (Json.obj.inj hh))
  | .null, .bool _ => isFalse (fun h => Json.noConfusion h)
  | .null, .num _ => isFalse (fun h => Json.noConfusion h)
  | .null, .str _ => isFalse (fun h => Json.noConfusion h)
  | .null, .arr _ => isFalse (fun h => Json.noConfusion h)
  | .null, .obj _ => isFalse (fun h => Json.noConfusion h)
  | .bool _, .null => isFalse (fun h => Json.noConfusion h)
  | .bool _, .num _ => isFalse (fun h => Json.noConfusion h)
  | .bool _, .str _ => isFalse (fun h => Json.noConfusion h)
  | .bool _, .arr _ => isFalse (fun h => Json.noConfusion h)
  | .bool _, .obj _ => isFalse (fun h => Json.noConfusion h)
  | .num _, .null => isFalse (fun h => Json.noConfusion h)
  | .num _, .bool _ => isFalse (fun h => Json.noConfusion h)
  | .num _, .str _ => isFalse (fun h => Json.noConfusion h)
  | .num _, .arr _ => isFalse (fun h => Json.noConfusion h)
  | .num _, .obj _ => isFalse (fun h => Json.noConfusion h)
  | .str _, .null => isFalse (fun h => Json.noConfusion h)
  | .str _, .bool _ => isFalse (fun h => Json.noConfusion h)
  | .str _, .num _ => isFalse (fun h => Json.noConfusion h)
  | .str _, .arr _ => isFalse (fun h => Json.noConfusion h)
  | .str _, .obj _ => isFalse (fun h => Json.noConfusion h)
  | .arr _, .null => isFalse (fun h => Json.noConfusion h)
  | .arr _, .bool _ => isFalse (fun h => Json.noConfusion h)
  | .arr _, .num _ => isFalse (fun h => Json.noConfusion h)
  | .arr _, .str _ => isFalse (fun h => Json.noConfusion h)
  | .arr _, .obj _ => isFalse (fun h => Json.noConfusion h)
  | .obj _, .null => isFalse (fun h => Json.noConfusion h)
  | .obj _, .bool _ => isFalse (fun h => Json.noConfusion h)
  | .obj _, .num _ => isFalse (fun h => Json.noConfusion h)
  | .obj _, .str _ => isFalse (fun h => Json.noConfusion h)
  | .obj _, .arr _ => isFalse (fun h => Json.noConfusion h)

def jsonDecEqList : (a b : List Json) → Decidable (a = b)
  | [], [] => isTrue rfl
  | x :: xs, y :: ys =>
      match jsonDecEq x y, jsonDecEqList xs ys with
      | isTrue h1, isTrue h2 => isTrue (by rw [h1, h2])
      | isFalse h1, _ => isFalse (fun hh => h1 (List.cons.inj hh).1)
      | _, isFalse h2 => isFalse (fun hh => h2 (List.cons.inj hh).2)
  | [], _ :: _ => isFalse (fun h => List.noConfusion h)
  | _ :: _, [] => isFalse (fun h => List.noConfusion h)

def jsonDecEqFields : (a b : List (Str × Json)) → Decidable (a = b)
  | [], [] => isTrue rfl
  | (k1, v1) :: xs, (k2, v2) :: ys =>
      match decEq k1 k2, jsonDecEq v1 v2, jsonDecEqFields xs ys with
      | isTrue h1, isTrue h2, isTrue h3 => isTrue (by rw [h1, h2, h3])
      | isFalse h1, _, _ =>
          isFalse (fun hh => h1 (congrArg Prod.fst (List.cons.inj hh).1))
      | _, isFalse h2, _ =>
          isFalse (fun hh => h2 (congrArg Prod.snd (List.cons.inj hh).1))
      | _, _, isFalse h3 => isFalse (fun hh => h3 (List.cons.inj hh).2)
  | [], _ :: _ => isFalse (fun h => List.noConfusion h)
  | _ :: _, [] => isFalse (fun h => List.noConfusion h)

end

instance : DecidableEq Json := jsonDecEq

/-! ## The config path filter (`src/pihole/config_filter.rs`) -/

/-- `FilterMode` from `config_filter.rs`. -/
inductive FilterMode where
  | optIn : FilterMode
  | optOut : FilterMode
deriving DecidableEq

/-- The bounded `while parts.len() > 1 { parts.pop(); ... }` membership loop of
`ConfigFilter::should_include_path`; the explicit fuel (always instantiated
with the list length, an upper bound on the iterations the Rust loop makes)
keeps the recursion structural. -/
def ancestorLoop (paths : List Str) : Nat → List Str → Bool
  | 0, _ => false
  | fuel + 1, parts =>
    if parts.length > 1 then
      let ps := parts.dropLast
      paths.contains (joinCh '.' ps) || ancestorLoop paths fuel ps
    else false

/-- True when some proper ancestor (`parts` shortened at least once, joined
with dots) is a member of `paths` — the Rust `while` loop in
`should_include_path`. -/
def anyAncestorIn (paths : List Str) (parts : List Str) : Bool :=
  ancestorLoop paths parts.length parts

/-- `ConfigFilter::should_include_path`. -/
def shouldIncludePath (paths : List Str) (mode : FilterMode) (path : Str) : Bool :=
  match mode with
  | .optIn =>
    if paths.contains path then true
    else
      let basePath := (splitCh '[' path).headD []
      let parts := splitCh '.' basePath
      if paths.contains (joinCh '.' parts) then true
      else if anyAncestorIn paths parts then true
      else
        paths.any fun includedPath =>
          basePath.isPrefixOf includedPath &&
            (includedPath.length == basePath.length ||
              includedPath.get? basePath.length == some '.')
  | .optOut =>
    if paths.contains path then false
    else !anyAncestorIn paths (splitCh '.' path)

mutual

/-- `ConfigFilter::filter_value`. -/
def filterValue (paths : List Str) (mode : FilterMode) : Json → Str → Json
  | .obj fields, currentPath => .obj (filterObject paths mode fields currentPath)
  | .arr xs, currentPath => .arr (filterArray paths mode xs currentPath 0)
  | v, _ => v

/-- `ConfigFilter::filter_object` (iteration over the object's entries). -/
def filterObject (paths : List Str) (mode : FilterMode) :
    List (Str × Json) → Str → List (Str × Json)
  | [], _ => []
  | (key, value) :: rest, path =>
    let currentPath := if path.isEmpty then key else path ++ '.' :: key
    (if shouldIncludePath paths mode currentPath then
      [(key, filterValue paths mode value currentPath)]
    else []) ++ filterObject paths mode rest path

/-- `ConfigFilter::filter_array` (iteration with the running original index). -/
def filterArray (paths : List Str) (mode : FilterMode) :
    List Json → Str → Nat → List Json
  | [], _, _ => []
  | value :: rest, path, idx =>
    let currentPath := path ++ '[' :: (natToStr idx ++ [']'])
    (if shouldIncludePath paths mode currentPath then
      [filterValue paths mode value currentPath]
    else []) ++ filterArray paths mode rest path (idx + 1)

end

/-- `ConfigFilter::filter_json`. -/
def filterJson (paths : List Str) (mode : FilterMode) (json : Json) : Json :=
  if paths.isEmpty then
    match mode with
    | .optIn => .obj []
    | .optOut => json
  else filterValue paths mode json []

/-! ## Structural predicates on JSON trees

These predicates express the side conditions under which the specification's
algebraic filter laws are stated: trees without arrays, and object keys that
are addressable by the dotted path syntax (nonempty, free of `.` and `[`) and
listed in strictly increasing order (as `serde_json`'s `BTreeMap` yields
them). -/

mutual

/-- The tree contains no array value anywhere. -/
def noArrays : Json → Bool
  | .arr _ => false
  | .obj fields => noArraysFields fields
  | _ => true

def noArraysFields : List (Str × Json) → Bool
  | [] => true
  | (_, v) :: rest => noArrays v && noArraysFields rest

end

/-- Lexicographic comparison of two character lists — Rust's `Ord` on `str`
(the repository only compares ASCII strings, for which byte order and
character order agree). -/
def cmpStr : Str → Str → Ordering
  | [], [] => .eq
  | [], _ :: _ => .lt
  | _ :: _, [] => .gt
  | a :: xs, b :: ys =>
    if a.toNat < b.toNat then .lt
    else if b.toNat < a.toNat then .gt
    else cmpStr xs ys

/-- Strict lexicographic order on `Str`. -/
def lexLt (a b : Str) : Bool :=
  match cmpStr a b with
  | .lt => true
  | _ => false

/-- A key addressable by the dotted path syntax. -/
def cleanKey (k : Str) : Bool := !k.isEmpty && !k.contains '.' && !k.contains '['

/-- Strictly ascending list of keys. -/
def keysStrictSorted : List Str → Bool
  | [] => true
  | [_] => true
  | a :: b :: rest => lexLt a b && keysStrictSorted (b :: rest)

mutual

/-- Every object key in the tree is clean (addressable by the dotted path
syntax). -/
def keysCleanJson : Json → Bool
  | .obj fields => keysCleanFields fields
  | .arr xs => keysCleanArr xs
  | _ => true

def keysCleanFields : List (Str × Json) → Bool
  | [] => true
  | (k, v) :: rest => cleanKey k && keysCleanJson v && keysCleanFields rest

def keysCleanArr : List Json → Bool
  | [] => true
  | v :: rest => keysCleanJson v && keysCleanArr rest

end

mutual

/-- Every object in the tree lists its keys in strictly ascending order — the
invariant `serde_json`'s `BTreeMap`-backed objects guarantee. -/
def keysSortedJson : Json → Bool
  | .obj fields => keysStrictSorted (fields.map Prod.fst) && keysSortedFields fields
  | .arr xs => keysSortedArr xs
  | _ => true

def keysSortedFields : List (Str × Json) → Bool
  | [] => true
  | (_, v) :: rest => keysSortedJson v && keysSortedFields rest

def keysSortedArr : List Json → Bool
  | [] => true
  | v :: rest => keysSortedJson v && keysSortedArr rest

end

/-- The path of a child entry, exactly as `filter_object` builds it. -/
def childPath (path k : Str) : Str := if path.isEmpty then k else path ++ '.' :: k

mutual

/-- The paths of the scalar (non-object, non-array) leaves of a tree, rooted
at `path`, built with the same dotted syntax the filter uses. -/
def leafPaths : Json → Str → List Str
  | .obj fields, path => leafPathsFields fields path
  | .arr xs, path => leafPathsArr xs path 0
  | _, path => [path]

def leafPathsFields : List (Str × Json) → Str → List Str
  | [], _ => []
  | (k, v) :: rest, path => leafPaths v (childPath path k) ++ leafPathsFields rest path

def leafPathsArr : List Json → Str → Nat → List Str
  | [], _, _ => []
  | v :: rest, path, idx =>
    leafPaths v (path ++ '[' :: (natToStr idx ++ [']'])) ++ leafPathsArr rest path (idx + 1)

end

mutual

/-- The key chains (segment lists) leading from the root of a tree to its
scalar leaves. Used to reason about `leafPaths`: on array-free trees with
clean keys, joining a chain with dots yields the corresponding leaf path.
Arrays have no key chains; the development only uses this on array-free
trees. -/
def leafChains : Json → List (List Str)
  | .obj fields => leafChainsFields fields
  | .arr _ => []
  | _ => [[]]

def leafChainsFields : List (Str × Json) → List (List Str)
  | [] => []
  | (k, v) :: rest => (leafChains v).map (fun ext => k :: ext) ++ leafChainsFields rest

end

/-- `ip` addresses a position strictly below `p` (it extends `p` at a dot
boundary). -/
def strictlyBelow (p ip : Str) : Bool :=
  p.isPrefixOf ip && ip.get? p.length == some '.'

/-- Some dotted prefix of the key chain `segs` (including the full chain) is
one of the configured filter paths. This is the notion of "covered by the
path set" in terms of which both filter modes' decisions are characterized. -/
def CoveredSegs (paths : List Str) (segs : List Str) : Prop :=
  ∃ k, 1 ≤ k ∧ k ≤ segs.length ∧ paths.contains (joinCh '.' (segs.take k)) = true

/-- Some configured filter path reaches strictly below the path `p`. -/
def BExtStr (paths : List Str) (p : Str) : Prop :=
  ∃ ip ∈ paths, strictlyBelow p ip = true

/-- Modelled from the spec: the side condition of the opt-in/opt-out
complementarity law. No configured filter path reaches strictly below a
scalar leaf of the tree (a path like `"a.b"` against a tree where `"a"` is
already a scalar addresses nothing, and makes both filters keep `"a"`). -/
def pathsRespectLeaves (paths : List Str) (t : Json) : Bool :=
  paths.all fun ip => (leafPaths t []).all fun leaf => !strictlyBelow leaf ip

mutual

/-- Modelled from the spec: the "union (recursive merge of the two filtered
objects)" of §8. Two objects are merged field-wise by key (their key lists
are ascending, as `serde_json` maps are); at equal keys the merge recurses;
any non-object value is taken from the left operand. -/
def mergeJson : Json → Json → Json
  | .obj f1, .obj f2 => .obj (mergeFields f1 f2)
  | a, _ => a

def mergeFields : List (Str × Json) → List (Str × Json) → List (Str × Json)
  | [], f2 => f2
  | (k1, v1) :: r1, f2 =>
    let smaller := f2.takeWhile fun g => lexLt g.1 k1
    let rest2 := f2.dropWhile fun g => lexLt g.1 k1
    match rest2 with
    | (k2, v2) :: r2 =>
      if k1 = k2 then smaller ++ (k1, mergeJson v1 v2) :: mergeFields r1 r2
      else smaller ++ (k1, v1) :: mergeFields r1 rest2
    | [] => smaller ++ (k1, v1) :: mergeFields r1 []

end

/-! ## 64-bit hashing (`DefaultHasher` = SipHash-1-3 with zero keys)

`sync::util::hash_value` serializes a value with `serde_json::to_string` and
feeds the string to `DefaultHasher`; `sync.rs::teleporter_backup_hash` feeds
the raw archive bytes to `DefaultHasher`. Both are implemented here
bit-faithfully: SipHash-1-3 over a byte stream, all 64-bit words carried as
naturals reduced modulo `2 ^ 64`. -/

/-- 64-bit rotate left. -/
def rotl64 (x b : Nat) : Nat := ((x <<< b) ||| (x >>> (64 - b))) % 2 ^ 64

/-- The four 64-bit words of the SipHash state. -/
structure SipState where
  v0 : Nat
  v1 : Nat
  v2 : Nat
  v3 : Nat

/-- One SipRound. -/
def sipRound (s : SipState) : SipState :=
  let v0 := (s.v0 + s.v1) % 2 ^ 64
  let v1 := rotl64 s.v1 13
  let v1 := v1 ^^^ v0
  let v0 := rotl64 v0 32
  let v2 := (s.v2 + s.v3) % 2 ^ 64
  let v3 := rotl64 s.v3 16
  let v3 := v3 ^^^ v2
  let v0 := (v0 + v3) % 2 ^ 64
  let v3 := rotl64 v3 21
  let v3 := v3 ^^^ v0
  let v2 := (v2 + v1) % 2 ^ 64
  let v1 := rotl64 v1 17
  let v1 := v1 ^^^ v2
  let v2 := rotl64 v2 32
  ⟨v0, v1, v2, v3⟩

/-- Little-endian word value of a byte list. -/
def le64 (bytes : List Nat) : Nat := bytes.foldr (fun b acc => b + 256 * acc) 0

/-- Compression of one message word into the state (SipHash-1-3: one round
per word). -/
def sipCompress (s : SipState) (m : Nat) : SipState :=
  let s := { s with v3 := s.v3 ^^^ m }
  let s := sipRound s
  { s with v0 := s.v0 ^^^ m }

/-- Main loop of SipHash-1-3: full 8-byte words, then the final word carrying
the trailing bytes and the total length in the top byte, then the three
finalization rounds. -/
def sipGo (s : SipState) (totalLen : Nat) : List Nat → Nat
  | b0 :: b1 :: b2 :: b3 :: b4 :: b5 :: b6 :: b7 :: rest =>
    sipGo (sipCompress s (le64 [b0, b1, b2, b3, b4, b5, b6, b7])) totalLen rest
  | tail =>
    let b := le64 tail + totalLen % 256 * 2 ^ 56
    let s := sipCompress s b
    let s := { s with v2 := s.v2 ^^^ 0xff }
    let s := sipRound (sipRound (sipRound s))
    s.v0 ^^^ s.v1 ^^^ s.v2 ^^^ s.v3

/-- SipHash-1-3 of a byte stream with both keys zero — the exact function
computed by `std::collections::hash_map::DefaultHasher` over the bytes
written to it. -/
def sipHash13 (data : List Nat) : Nat :=
  sipGo
    ⟨0x736f6d6570736575, 0x646f72616e646f6d, 0x6c7967656e657261, 0x7465646279746573⟩
    data.length data

/-- `teleporter_backup_hash` from `sync.rs`: hash the raw archive bytes. -/
def teleporter_backup_hash (bytes : List Nat) : Nat := sipHash13 bytes

/-! ## JSON serialization of the normalized fingerprint records

`hash_value` hashes the `serde_json::to_string` rendering of the normalized
group/list records; the rendering of the two derived `Serialize` impls is
reproduced field by field. -/

/-- UTF-8 encoding of one character. -/
def utf8Char (c : Char) : List Nat :=
  let n := c.toNat
  if n < 0x80 then [n]
  else if n < 0x800 then [0xC0 ||| n >>> 6, 0x80 ||| (n &&& 0x3F)]
  else if n < 0x10000 then
    [0xE0 ||| n >>> 12, 0x80 ||| (n >>> 6 &&& 0x3F), 0x80 ||| (n &&& 0x3F)]
  else
    [0xF0 ||| n >>> 18, 0x80 ||| (n >>> 12 &&& 0x3F), 0x80 ||| (n >>> 6 &&& 0x3F),
      0x80 ||| (n &&& 0x3F)]

/-- UTF-8 bytes of a string. -/
def utf8Bytes (s : Str) : List Nat := (s.map utf8Char).flatten

/-- Lowercase hexadecimal digit. -/
def hexDigit (n : Nat) : Char :=
  if n < 10 then Char.ofNat ('0'.toNat + n) else Char.ofNat ('a'.toNat + n - 10)

/-- `serde_json`'s escaping of one character inside a string literal. -/
def escapeChar (c : Char) : Str :=
  if c = '"' then ['\\', '"']
  else if c = '\\' then ['\\', '\\']
  else if c = '\x08' then ['\\', 'b']
  else if c = '\x09' then ['\\', 't']
  else if c = '\x0a' then ['\\', 'n']
  else if c = '\x0c' then ['\\', 'f']
  else if c = '\x0d' then ['\\', 'r']
  else if c.toNat < 0x20 then
    ['\\', 'u', '0', '0', hexDigit (c.toNat / 16), hexDigit (c.toNat % 16)]
  else [c]

/-- A JSON string literal. -/
def serStr (s : Str) : Str := '"' :: (s.map escapeChar).flatten ++ ['"']

/-- An `Option<String>` field: `null` or a string literal. -/
def serOptStr : Option Str → Str
  | none => "null".toList
  | some s => serStr s

/-- A boolean. -/
def serBool (b : Bool) : Str := if b then "true".toList else "false".toList

/-- A JSON array of the renderings of the elements. -/
def serArrWith (f : α → Str) (l : List α) : Str :=
  '[' :: joinCh ',' (l.map f) ++ [']']

/-! ## Groups and lists (`src/pihole/client.rs` data, `src/sync/groups.rs`,
`src/sync/lists.rs`) -/

/-- `Group` from `client.rs` (the instance-local `id` is optional). -/
structure Group where
  name : Str
  comment : Option Str
  enabled : Bool
  id : Option Nat
deriving DecidableEq

/-- `List` from `client.rs` (named `ListEntry` here; `List` is taken). -/
structure ListEntry where
  address : Str
  list_type : Str
  comment : Option Str
  groups : List Nat
  enabled : Bool
  id : Option Nat
deriving DecidableEq

/-- `NormalizedGroup` from `groups.rs`. -/
structure NormalizedGroup where
  name : Str
  comment : Option Str
  enabled : Bool
deriving DecidableEq

/-- `NormalizedList` from `lists.rs`. -/
structure NormalizedList where
  address : Str
  list_type : Str
  comment : Option Str
  enabled : Bool
  groups : List Str
deriving DecidableEq

/-- Stable insertion of `x` into a run already sorted by the total preorder
`le`. -/
def insertSorted (le : α → α → Bool) (x : α) : List α → List α
  | [] => [x]
  | y :: ys => if le x y then x :: y :: ys else y :: insertSorted le x ys

/-- Stable sort by a total preorder — the observable behaviour of Rust's
stable `sort`/`sort_by`. -/
def sortByStable (le : α → α → Bool) : List α → List α
  | [] => []
  | x :: xs => insertSorted le x (sortByStable le xs)

/-- Ascending comparator from an `Ordering`-valued comparison. -/
def cmpLe (o : Ordering) : Bool :=
  match o with
  | .gt => false
  | _ => true

/-- `HashMap::get` after building the map from a sequence of insertions:
the last binding of a key wins. -/
def hashMapGet [BEq κ] (entries : List (κ × V)) (k : κ) : Option V :=
  entries.foldl (fun acc e => if e.1 == k then some e.2 else acc) none

/-- `format!("id:{}", id)` — the fallback name for an unknown group id. -/
def idFallbackName (id : Nat) : Str := "id:".toList ++ natToStr id

/-- `normalize_groups` from `groups.rs`: project and sort by name. -/
def normalize_groups (groups : List Group) : List NormalizedGroup :=
  sortByStable (fun a b => cmpLe (cmpStr a.name b.name))
    (groups.map fun g => ⟨g.name, g.comment, g.enabled⟩)

/-- `normalize_lists` from `lists.rs`: map group ids to names through the
main lookup (empty membership counts as the default group 0), sort the names,
then sort the records by (address, type). -/
def normalize_lists (lists : List ListEntry) (group_lookup : List (Nat × Str)) :
    List NormalizedList :=
  let normalized := lists.map fun l =>
    let group_ids := if l.groups.isEmpty then [0] else l.groups
    let group_names :=
      sortByStable (fun a b => cmpLe (cmpStr a b))
        (group_ids.map fun id => (hashMapGet group_lookup id).getD (idFallbackName id))
    (⟨l.address, l.list_type, l.comment, l.enabled, group_names⟩ : NormalizedList)
  sortByStable
    (fun a b => cmpLe ((cmpStr a.address b.address).then (cmpStr a.list_type b.list_type)))
    normalized

/-- `serde_json::to_string` of one `NormalizedGroup` (derived `Serialize`,
fields in declaration order). -/
def serializeNormalizedGroup (g : NormalizedGroup) : Str :=
  ['\x7b'] ++ serStr "name".toList ++ [':'] ++ serStr g.name ++ [','] ++
    serStr "comment".toList ++ [':'] ++ serOptStr g.comment ++ [','] ++
    serStr "enabled".toList ++ [':'] ++ serBool g.enabled ++ ['\x7d']

/-- `serde_json::to_string` of one `NormalizedList`. -/
def serializeNormalizedList (l : NormalizedList) : Str :=
  ['\x7b'] ++ serStr "address".toList ++ [':'] ++ serStr l.address ++ [','] ++
    serStr "list_type".toList ++ [':'] ++ serStr l.list_type ++ [','] ++
    serStr "comment".toList ++ [':'] ++ serOptStr l.comment ++ [','] ++
    serStr "enabled".toList ++ [':'] ++ serBool l.enabled ++ [','] ++
    serStr "groups".toList ++ [':'] ++ serArrWith serStr l.groups ++ ['\x7d']

/-- `hash_value` from `util.rs` applied to a serialized rendering: Rust
hashes the `String` (its UTF-8 bytes followed by the `0xff` terminator that
`str`'s `Hash` impl writes) with `DefaultHasher`. -/
def hashSerialized (s : Str) : Nat := sipHash13 (utf8Bytes s ++ [0xff])

/-- `hash_value(&normalize_groups(groups))`. -/
def hashNormalizedGroups (groups : List Group) : Nat :=
  hashSerialized (serArrWith serializeNormalizedGroup (normalize_groups groups))

/-- `hash_value(&normalize_lists(lists, lookup))`. -/
def hashNormalizedLists (lists : List ListEntry) (group_lookup : List (Nat × Str)) : Nat :=
  hashSerialized (serArrWith serializeNormalizedList (normalize_lists lists group_lookup))

/-! ## Group reconciliation (`sync_groups` in `src/sync/groups.rs`) -/

/-- The remote write calls group reconciliation can make. `delete` exists so
that "never destructive" is expressible: the Pi-hole client offers no group
deletion and `sync_groups` never issues one. -/
inductive GroupAction where
  | create (group : Group) : GroupAction
  | update (existingName : Str) (group : Group) : GroupAction
  | delete (name : Str) : GroupAction
deriving DecidableEq

/-- `sync_groups`, with the remote calls reified as a list of actions in
order of emission. -/
def sync_groups (main_groups secondary_groups : List Group) : List GroupAction :=
  let secondary_by_name := secondary_groups.map fun g => (g.name, g)
  main_groups.flatMap fun group =>
    match hashMapGet secondary_by_name group.name with
    | some existing =>
      if existing.comment != group.comment || existing.enabled != group.enabled then
        [.update existing.name group]
      else []
    | none => [.create group]

/-- Modelled from the spec (§4.4): for each main group, look the name up
among the secondary's groups; update on a (comment, enabled) difference,
create when absent, touch nothing else. Stated with a plain first-match
lookup; with distinct secondary names this is the behaviour `sync_groups`
must refine. -/
def specGroupsReconcile (main_groups secondary_groups : List Group) : List GroupAction :=
  main_groups.flatMap fun group =>
    match secondary_groups.find? (fun s => s.name == group.name) with
    | some existing =>
      if existing.comment ≠ group.comment ∨ existing.enabled ≠ group.enabled then
        [.update existing.name group]
      else []
    | none => [.create group]

/-! ## List reconciliation (`src/sync/lists.rs`) -/

/-- `Vec::dedup`: drop adjacent duplicates (global duplicates, after the
sort that precedes it in `groups_for_list`). -/
def dedupAdj : List Nat → List Nat
  | [] => []
  | [x] => [x]
  | x :: y :: rest => if x = y then dedupAdj (y :: rest) else x :: dedupAdj (y :: rest)

/-- `groups_for_list`: translate a main list's group ids through main's
id→name table and the secondary's name→id table; without group sync a list
referencing any non-default group collapses to the default group; unresolved
names fall back to the default group 0 (a logged warning, not an error). -/
def groups_for_list (list : ListEntry) (main_group_lookup : List (Nat × Str))
    (secondary_group_lookup : List (Str × Nat)) (sync_groups_opt : Bool) : List Nat :=
  let raw_groups := if list.groups.isEmpty then [0] else list.groups
  if !sync_groups_opt && raw_groups.any (fun g => g != 0) then [0]
  else
    let mapped := raw_groups.map fun gid =>
      let name := (hashMapGet main_group_lookup gid).getD (idFallbackName gid)
      match hashMapGet secondary_group_lookup name with
      | some sec_id => sec_id
      | none => 0
    dedupAdj (sortByStable (fun a b => decide (a ≤ b)) mapped)

/-- `lists_equal` from `lists.rs`. -/
def lists_equal (target existing : ListEntry) : Bool :=
  let target_groups := sortByStable (fun a b => decide (a ≤ b)) target.groups
  let existing_groups :=
    sortByStable (fun a b => decide (a ≤ b))
      (if existing.groups.isEmpty then [0] else existing.groups)
  target.comment == existing.comment && target.enabled == existing.enabled &&
    target_groups == existing_groups

/-- The remote write calls list reconciliation can make. -/
inductive ListAction where
  | add (list : ListEntry) : ListAction
  | update (list : ListEntry) : ListAction
deriving DecidableEq

/-- `sync_lists`, with the remote calls reified. -/
def sync_lists (main_lists : List ListEntry) (main_group_lookup : List (Nat × Str))
    (secondary_groups : List Group) (secondary_lists : List ListEntry)
    (sync_groups_opt : Bool) : List ListAction :=
  let secondary_group_lookup :=
    secondary_groups.filterMap fun g => g.id.map fun id => (g.name, id)
  let secondary_list_lookup := secondary_lists.map fun l => ((l.address, l.list_type), l)
  main_lists.flatMap fun list =>
    let desired_groups :=
      groups_for_list list main_group_lookup secondary_group_lookup sync_groups_opt
    let desired_list := { list with groups := desired_groups }
    match hashMapGet secondary_list_lookup (list.address, list.list_type) with
    | some existing =>
      if !lists_equal desired_list existing then [.update desired_list] else []
    | none => [.add desired_list]

/-! ## The change tracker (`HashTracker` in `src/sync/util.rs`) -/

/-- The tracker's map, as its insertion sequence; `hashMapGet` reads it with
`HashMap` semantics (last insertion of a key wins). -/
abbrev HashTracker := List (Str × Nat)

/-- `HashTracker::has_changed`: true when no record exists for the key or the
stored hash differs. -/
def has_changed (tracker : HashTracker) (key : Str) (current_hash : Nat) : Bool :=
  match hashMapGet tracker key with
  | none => true
  | some previous => previous != current_hash

/-- `HashTracker::update`: unconditional overwrite. -/
def tracker_update (tracker : HashTracker) (key : Str) (hash : Nat) : HashTracker :=
  tracker ++ [(key, hash)]

/-- `format!("config:{}", host)` and friends. -/
def configKey (host : Str) : Str := "config:".toList ++ host

def groupsKey (host : Str) : Str := "groups:".toList ++ host

def listsKey (host : Str) : Str := "lists:".toList ++ host

/-! ## Per-secondary selective sync steps (`src/sync/config_sync.rs`)

Each branch of the per-secondary loop of `sync_config_api` is embedded as a
pure transition: the outcomes of the remote calls are inputs, the write calls
performed and the tracker after the branch are outputs. -/

/-- The remote write calls a selective sync can make. -/
inductive WriteCall where
  | patchConfig (host : Str) : WriteCall
  | triggerGravity (host : Str) : WriteCall
  | groupWrite (host : Str) (action : GroupAction) : WriteCall
  | listWrite (host : Str) (action : ListAction) : WriteCall
deriving DecidableEq

/-- The config branch of the per-secondary loop (given that a main config was
fetched). `filteredHash = none` models a `hash_config` failure (the code
logs and `continue`s); `patchOk` is the outcome of
`patch_config_and_wait_for_ftl_readiness` (its readiness wait included);
gravity failures are logged and do not affect the tracker. -/
def configSyncBranch (host : Str) (filteredHash : Option Nat) (patchOk : Bool)
    (update_gravity : Bool) (tracker : HashTracker) : List WriteCall × HashTracker :=
  match filteredHash with
  | none => ([], tracker)
  | some filtered_hash =>
    if !has_changed tracker (configKey host) filtered_hash then ([], tracker)
    else if patchOk then
      ([.patchConfig host] ++ (if update_gravity then [.triggerGravity host] else []),
        tracker_update tracker (configKey host) filtered_hash)
    else ([.patchConfig host], tracker)

/-- The groups branch. `main_groups_hash = none` models a failed hash;
`secondary_fetch = none` a failed `get_groups` on the secondary;
`applyFailAt = some i` an error from the `i`-th write call inside
`sync_groups` (every call up to and including the failing one was issued). -/
def groupsSyncBranch (host : Str) (main_groups : List Group)
    (main_groups_hash : Option Nat) (secondary_fetch : Option (List Group))
    (applyFailAt : Option Nat) (tracker : HashTracker) : List WriteCall × HashTracker :=
  if main_groups.isEmpty then ([], tracker)
  else
    match main_groups_hash with
    | none => ([], tracker)
    | some groups_hash =>
      if !has_changed tracker (groupsKey host) groups_hash then ([], tracker)
      else
        match secondary_fetch with
        | none => ([], tracker)
        | some secondary_groups =>
          let actions := (sync_groups main_groups secondary_groups).map (.groupWrite host)
          match applyFailAt with
          | none => (actions, tracker_update tracker (groupsKey host) groups_hash)
          | some i => (actions.take (i + 1), tracker)

/-- The lists branch; the two secondary fetches (groups, then lists) can fail
independently, then `sync_lists` can fail at some write. -/
def listsSyncBranch (host : Str) (main_lists : List ListEntry)
    (main_group_lookup : List (Nat × Str)) (main_lists_hash : Option Nat)
    (secondary_groups_fetch : Option (List Group))
    (secondary_lists_fetch : Option (List ListEntry)) (sync_groups_opt : Bool)
    (applyFailAt : Option Nat) (tracker : HashTracker) : List WriteCall × HashTracker :=
  if main_lists.isEmpty then ([], tracker)
  else
    match main_lists_hash with
    | none => ([], tracker)
    | some lists_hash =>
      if !has_changed tracker (listsKey host) lists_hash then ([], tracker)
      else
        match secondary_groups_fetch with
        | none => ([], tracker)
        | some secondary_groups =>
          match secondary_lists_fetch with
          | none => ([], tracker)
          | some secondary_lists =>
            let actions :=
              (sync_lists main_lists main_group_lookup secondary_groups secondary_lists
                sync_groups_opt).map (.listWrite host)
            match applyFailAt with
            | none => (actions, tracker_update tracker (listsKey host) lists_hash)
            | some i => (actions.take (i + 1), tracker)

/-! ## Session logout (`PiHoleClient::logout` in `src/pihole/client.rs`) -/

/-- Outcome of the `DELETE /auth` request. -/
inductive HttpOutcome where
  | transportError : HttpOutcome
  | response (status : Nat) : HttpOutcome
deriving DecidableEq

/-- What `logout()` did: whether it returned `Ok`, the cached token
afterwards, and whether the invalidation request was issued at all. -/
structure LogoutResult where
  ok : Bool
  newToken : Option Str
  calledRemote : Bool
deriving DecidableEq

/-- `PiHoleClient::logout`. With no cached token it returns at once. With a
token it issues `DELETE /auth`; a transport failure propagates through `?`
before the cache-clearing line, as does the `error_for_status()?` taken for
statuses that are neither 410, nor 2xx, nor 401 but are 4xx/5xx. Only the
paths that fall through those two early returns reach
`*self.session_token.lock() = None`. -/
def logout (session_token : Option Str) (remote : HttpOutcome) : LogoutResult :=
  match session_token with
  | none => ⟨true, none, false⟩
  | some token =>
    match remote with
    | .transportError => ⟨false, some token, true⟩
    | .response status =>
      if status == 410 || (200 ≤ status && status ≤ 299) || status == 401 then
        ⟨true, none, true⟩
      else if 400 ≤ status && status ≤ 599 then ⟨false, some token, true⟩
      else ⟨true, none, true⟩

/-! ## Readiness polling (`PiHoleClient::wait_for_ready`) -/

/-- The backoff the loop sleeps after a failed attempt:
`(2u64.pow(attempt.min(6)) * 50).min(1_000)` milliseconds. -/
def backoffMs (attempt : Nat) : Nat := min (2 ^ min attempt 6 * 50) 1000

/-- The `wait_for_ready` loop over a finite trace of attempts. Each trace
entry is the outcome of one `ensure_authenticated` call paired with the
elapsed wall-clock milliseconds observed if that attempt fails. The result is
`some true` on success, `some false` on the readiness-timeout error, `none`
when the trace ends with the loop still running; the second component lists
the backoff sleeps performed. -/
def waitForReadyGo (timeout attempt : Nat) :
    List (Bool × Nat) → Option Bool × List Nat
  | [] => (none, [])
  | (ok, elapsed) :: rest =>
    let attempt := attempt + 1
    if ok then (some true, [])
    else if elapsed ≥ timeout then (some false, [])
    else
      let r := waitForReadyGo timeout attempt rest
      (r.1, backoffMs attempt :: r.2)

/-- `wait_for_ready` starts with `attempt = 0` and increments before each
try. -/
def wait_for_ready (timeout : Nat) (trace : List (Bool × Nat)) : Option Bool × List Nat :=
  waitForReadyGo timeout 0 trace

/-! ## The Teleporter snapshot cycle (`perform_sync` in `src/sync.rs`) -/

/-- `SyncMode` from the configuration. -/
inductive SyncMode where
  | teleporter : SyncMode
  | api : SyncMode
deriving DecidableEq

/-- One secondary as the Teleporter path sees it in one cycle: its configured
mode and gravity flag, plus the outcomes its upload and gravity calls would
have. -/
structure TeleSecondary where
  sync_mode : Option SyncMode
  update_gravity : Bool
  uploadOk : Bool
  gravityOk : Bool
deriving DecidableEq

/-- A secondary participates in the Teleporter path when its mode is
`Teleporter` or unset. -/
def isTeleporterMode (s : TeleSecondary) : Bool :=
  match s.sync_mode with
  | some .teleporter => true
  | none => true
  | some .api => false

/-- `upload_backup` (from `src/sync/teleporter.rs`) succeeds when the upload
succeeds and, if gravity is requested, the gravity trigger does too (a
gravity error propagates out of `upload_backup`). -/
def uploadBackupOk (s : TeleSecondary) : Bool :=
  s.uploadOk && (!s.update_gravity || s.gravityOk)

/-- Remote calls of the Teleporter path, tagged with the secondary's position
in the configured list. -/
inductive TeleAction where
  | upload (idx : Nat) : TeleAction
  | gravity (idx : Nat) : TeleAction
deriving DecidableEq

/-- The sticky teleporter fields of `SyncState` in `sync.rs`. -/
structure TeleState where
  last_teleporter_hash : Option Nat
  last_teleporter_applied : Bool
deriving DecidableEq

/-- `upload_teleporter_to_secondaries`: try every Teleporter-mode secondary
independently, collect the calls made, and report whether all of them
succeeded. -/
def uploadTeleporterToSecondaries (secs : List TeleSecondary) (idx : Nat) :
    List TeleAction × Bool :=
  match secs with
  | [] => ([], true)
  | s :: rest =>
    let (actions, allOk) := uploadTeleporterToSecondaries rest (idx + 1)
    if isTeleporterMode s then
      let mine :=
        [.upload idx] ++ (if s.uploadOk && s.update_gravity then [.gravity idx] else [])
      (mine ++ actions, uploadBackupOk s && allOk)
    else (actions, allOk)

/-- The Teleporter section of one `perform_sync` cycle. `download = none`
models a failed download or a failed read-back of the archive (the state is
left untouched); with the archive bytes in hand the cycle hashes them, skips
every upload when the hash matches the previous cycle's hash and that cycle's
snapshot was applied everywhere, and otherwise uploads to each
Teleporter-mode secondary independently. The new state always records the
downloaded hash, and records as applied either a fully successful upload pass
or a skip. -/
def performSyncTeleporter (st : TeleState) (download : Option (List Nat))
    (secs : List TeleSecondary) : TeleState × List TeleAction :=
  match download with
  | none => (st, [])
  | some backup_bytes =>
    let backup_hash := teleporter_backup_hash backup_bytes
    let should_upload :=
      !(some backup_hash == st.last_teleporter_hash) || !st.last_teleporter_applied
    if should_upload then
      let (actions, applied) := uploadTeleporterToSecondaries secs 0
      (⟨some backup_hash, applied⟩, actions)
    else (⟨some backup_hash, true⟩, [])

/-- A run of consecutive cycles: each entry carries that cycle's download
outcome and per-secondary call outcomes; the output lists each cycle's
post-state and issued calls. -/
def runTeleporterCycles (st : TeleState) :
    List (Option (List Nat) × List TeleSecondary) → List (TeleState × List TeleAction)
  | [] => []
  | (download, secs) :: rest =>
    let r := performSyncTeleporter st download secs
    r :: runTeleporterCycles r.1 rest

/-! # Theorems

Helper lemmas first, then the claim theorems (with their witnesses and
counterexamples). -/

/-! ## Lexicographic comparison -/

theorem charToNat_inj {a b : Char} (h : a.toNat = b.toNat) : a = b :=
  Char.ext (UInt32.ext h)

theorem cmpStr_nil_ne_gt : ∀ c : Str, cmpStr [] c ≠ .gt := by
  intro c
  cases c <;> simp [cmpStr]

theorem cmpStr_eq_iff : ∀ a b : Str, cmpStr a b = .eq ↔ a = b
  | [], [] => by simp [cmpStr]
  | [], _ :: _ => by simp [cmpStr]
  | _ :: _, [] => by simp [cmpStr]
  | a :: xs, b :: ys => by
    simp only [cmpStr]
    rcases Nat.lt_trichotomy a.toNat b.toNat with h | h | h
    · have hne : a ≠ b := fun he => by simp [he] at h
      simp [h, hne]
    · have hab : a = b := charToNat_inj h
      subst hab
      simp [cmpStr_eq_iff xs ys]
    · have hne : a ≠ b := fun he => by simp [he] at h
      simp [h, Nat.lt_asymm h, hne]

theorem cmpStr_swap : ∀ a b : Str, cmpStr b a = (cmpStr a b).swap
  | [], [] => by simp [cmpStr, Ordering.swap]
  | [], _ :: _ => by simp [cmpStr, Ordering.swap]
  | _ :: _, [] => by simp [cmpStr, Ordering.swap]
  | a :: xs, b :: ys => by
    simp only [cmpStr]
    rcases Nat.lt_trichotomy a.toNat b.toNat with h | h | h
    · simp [h, Nat.lt_asymm h, Ordering.swap]
    · have h1 : ¬a.toNat < b.toNat := by omega
      have h2 : ¬b.toNat < a.toNat := by omega
      simp [h1, h2, cmpStr_swap xs ys]
    · simp [h, Nat.lt_asymm h, Ordering.swap]

theorem cmpStr_le_trans :
    ∀ a b c : Str, cmpStr a b ≠ .gt → cmpStr b c ≠ .gt → cmpStr a c ≠ .gt
  | [], _, c, _, _ => cmpStr_nil_ne_gt c
  | _ :: _, [], _, hab, _ => by simp [cmpStr] at hab
  | _ :: _, _ :: _, [], _, hbc => by simp [cmpStr] at hbc
  | a :: xs, b :: ys, c :: zs, hab, hbc => by
    simp only [cmpStr] at hab hbc ⊢
    rcases Nat.lt_trichotomy a.toNat b.toNat with h1 | h1 | h1
    · rcases Nat.lt_trichotomy b.toNat c.toNat with h2 | h2 | h2
      · simp [show a.toNat < c.toNat by omega]
      · simp [show a.toNat < c.toNat by omega]
      · simp [show ¬b.toNat < c.toNat by omega, h2] at hbc
    · rcases Nat.lt_trichotomy b.toNat c.toNat with h2 | h2 | h2
      · simp [show a.toNat < c.toNat by omega]
      · simp [show ¬a.toNat < b.toNat by omega, show ¬b.toNat < a.toNat by omega] at hab
        simp [show ¬b.toNat < c.toNat by omega, show ¬c.toNat < b.toNat by omega] at hbc
        simp [show ¬a.toNat < c.toNat by omega, show ¬c.toNat < a.toNat by omega]
        exact cmpStr_le_trans xs ys zs hab hbc
      · simp [show ¬b.toNat < c.toNat by omega, h2] at hbc
    · simp [show ¬a.toNat < b.toNat by omega, h1] at hab

theorem cmpStr_refl (a : Str) : cmpStr a a = .eq := (cmpStr_eq_iff a a).2 rfl

theorem lexLt_iff {a b : Str} : lexLt a b = true ↔ cmpStr a b = .lt := by
  cases h : cmpStr a b <;> simp [lexLt, h]

theorem lexLt_trans {a b c : Str} (h1 : lexLt a b = true) (h2 : lexLt b c = true) :
    lexLt a c = true := by
  rw [lexLt_iff] at h1 h2 ⊢
  have hle : cmpStr a c ≠ .gt :=
    cmpStr_le_trans a b c (by simp [h1]) (by simp [h2])
  cases hac : cmpStr a c with
  | lt => rfl
  | eq =>
    exfalso
    have : a = c := (cmpStr_eq_iff a c).1 hac
    subst this
    have hs := cmpStr_swap a b
    rw [h1, h2] at hs
    simp [Ordering.swap] at hs
  | gt => exact absurd hac hle

theorem lexLt_asymm {a b : Str} (h : lexLt a b = true) : lexLt b a = false := by
  rw [lexLt_iff] at h
  have hs := cmpStr_swap a b
  rw [h] at hs
  simp only [Ordering.swap] at hs
  simp [lexLt, hs]

theorem lexLt_ne {a b : Str} (h : lexLt a b = true) : a ≠ b := by
  intro he
  subst he
  rw [lexLt_iff, cmpStr_refl] at h
  exact Ordering.noConfusion h

/-! ## Stable sorting -/

theorem insertSorted_perm (le : α → α → Bool) (x : α) :
    ∀ l : List α, (insertSorted le x l).Perm (x :: l)
  | [] => List.Perm.refl _
  | y :: ys => by
    simp only [insertSorted]
    by_cases h : le x y = true
    · simp [h]
    · simp only [h, if_false]
      exact ((insertSorted_perm le x ys).cons y).trans (List.Perm.swap x y ys)

theorem sortByStable_perm (le : α → α → Bool) :
    ∀ l : List α, (sortByStable le l).Perm l
  | [] => List.Perm.refl _
  | x :: xs =>
    (insertSorted_perm le x (sortByStable le xs)).trans
      ((sortByStable_perm le xs).cons x)

theorem insertSorted_pairwise (le : α → α → Bool)
    (htot : ∀ a b, le a b = true ∨ le b a = true)
    (htrans : ∀ a b c, le a b = true → le b c = true → le a c = true) (x : α) :
    ∀ l : List α, l.Pairwise (fun a b => le a b = true) →
      (insertSorted le x l).Pairwise (fun a b => le a b = true)
  | [], _ => by simp [insertSorted]
  | y :: ys, hp => by
    simp only [insertSorted]
    rcases List.pairwise_cons.1 hp with ⟨hy, hys⟩
    by_cases h : le x y = true
    · simp only [h, if_true]
      refine List.pairwise_cons.2 ⟨?_, hp⟩
      intro z hz
      rcases hz with _ | hz
      · exact h
      · exact htrans x y z h (hy z (by assumption))
    · simp only [h, if_false]
      refine List.pairwise_cons.2 ⟨?_, insertSorted_pairwise le htot htrans x ys hys⟩
      intro z hz
      have hperm := insertSorted_perm le x ys
      have hz' : z ∈ x :: ys := hperm.mem_iff.1 hz
      rcases hz' with _ | hz'
      · rcases htot x y with hxy | hyx
        · exact absurd hxy h
        · exact hyx
      · exact hy z (by assumption)

theorem sortByStable_pairwise (le : α → α → Bool)
    (htot : ∀ a b, le a b = true ∨ le b a = true)
    (htrans : ∀ a b c, le a b = true → le b c = true → le a c = true) :
    ∀ l : List α, (sortByStable le l).Pairwise (fun a b => le a b = true)
  | [] => by simp [sortByStable]
  | x :: xs =>
    insertSorted_pairwise le htot htrans x (sortByStable le xs)
      (sortByStable_pairwise le htot htrans xs)

/-- Two permuted lists whose elements are pairwise distinguishable under a
lawful comparison have the same stable sort. -/
theorem sortByStable_eq_of_perm (cmp : α → α → Ordering)
    (hswap : ∀ a b, cmp b a = (cmp a b).swap)
    (htrans : ∀ a b c, cmp a b ≠ .gt → cmp b c ≠ .gt → cmp a c ≠ .gt)
    {l1 l2 : List α} (hperm : l1.Perm l2)
    (hne : l1.Pairwise (fun a b => cmp a b ≠ .eq)) :
    sortByStable (fun a b => cmpLe (cmp a b)) l1 =
      sortByStable (fun a b => cmpLe (cmp a b)) l2 := by
  set le := fun a b => cmpLe (cmp a b) with hle
  have hleIff : ∀ a b, le a b = true ↔ cmp a b ≠ .gt := by
    intro a b
    rw [hle]
    cases h : cmp a b <;> simp [cmpLe, h]
  have htot : ∀ a b, le a b = true ∨ le b a = true := by
    intro a b
    by_cases h : cmp a b = .gt
    · right
      rw [hleIff]
      rw [hswap, h]
      simp [Ordering.swap]
    · left
      exact (hleIff a b).2 h
  have htransB : ∀ a b c, le a b = true → le b c = true → le a c = true := by
    intro a b c h1 h2
    exact (hleIff a c).2 (htrans a b c ((hleIff a b).1 h1) ((hleIff b c).1 h2))
  have hs1 := sortByStable_pairwise le htot htransB l1
  have hs2 := sortByStable_pairwise le htot htransB l2
  have hsymm : ∀ {x y : α}, cmp x y ≠ .eq → cmp y x ≠ .eq := by
    intro x y h hyx
    rw [hswap] at hyx
    cases hxy : cmp x y <;> rw [hxy] at hyx <;> simp [Ordering.swap] at hyx
    exact h hxy
  have hne1 : (sortByStable le l1).Pairwise (fun a b => cmp a b ≠ .eq) :=
    ((sortByStable_perm le l1).pairwise_iff hsymm).2 hne
  have hne2 : (sortByStable le l2).Pairwise (fun a b => cmp a b ≠ .eq) :=
    (((sortByStable_perm le l2).trans hperm.symm).pairwise_iff hsymm).2 hne
  have hlt1 : (sortByStable le l1).Pairwise (fun a b => cmp a b = .lt) := by
    refine (hs1.and hne1).imp ?_
    intro a b ⟨h1, h2⟩
    have := (hleIff a b).1 h1
    cases h : cmp a b
    · rfl
    · exact absurd h h2
    · exact absurd h this
  have hlt2 : (sortByStable le l2).Pairwise (fun a b => cmp a b = .lt) := by
    refine (hs2.and hne2).imp ?_
    intro a b ⟨h1, h2⟩
    have := (hleIff a b).1 h1
    cases h : cmp a b
    · rfl
    · exact absurd h h2
    · exact absurd h this
  haveI : IsAntisymm α (fun a b => cmp a b = .lt) := by
    constructor
    intro a b hab hba
    rw [hswap, hab] at hba
    simp [Ordering.swap] at hba
  exact
    List.eq_of_perm_of_sorted
      ((sortByStable_perm le l1).trans (hperm.trans (sortByStable_perm le l2).symm))
      hlt1 hlt2

/-! ## Order independence of the normalized fingerprints -/

theorem ordering_then_eq_iff (o1 o2 : Ordering) :
    o1.then o2 = .eq ↔ o1 = .eq ∧ o2 = .eq := by
  cases o1 <;> simp [Ordering.then]

theorem ordering_then_swap (o1 o2 : Ordering) :
    (o1.then o2).swap = o1.swap.then o2.swap := by
  cases o1 <;> cases o2 <;> simp [Ordering.then, Ordering.swap]

theorem cmpStr_lt_of_lt_of_le {a b c : Str} (h1 : cmpStr a b = .lt)
    (h2 : cmpStr b c ≠ .gt) : cmpStr a c = .lt := by
  have hle : cmpStr a c ≠ .gt := cmpStr_le_trans a b c (by simp [h1]) h2
  cases hac : cmpStr a c with
  | lt => rfl
  | eq =>
    exfalso
    have : a = c := (cmpStr_eq_iff a c).1 hac
    subst this
    have hs := cmpStr_swap a b
    rw [h1] at hs
    simp only [Ordering.swap] at hs
    exact h2 hs
  | gt => exact absurd hac hle

theorem cmpStr_lt_of_le_of_lt {a b c : Str} (h1 : cmpStr a b ≠ .gt)
    (h2 : cmpStr b c = .lt) : cmpStr a c = .lt := by
  have hle : cmpStr a c ≠ .gt := cmpStr_le_trans a b c h1 (by simp [h2])
  cases hac : cmpStr a c with
  | lt => rfl
  | eq =>
    exfalso
    have : a = c := (cmpStr_eq_iff a c).1 hac
    subst this
    have hs := cmpStr_swap b a
    rw [h2] at hs
    simp only [Ordering.swap] at hs
    exact h1 hs
  | gt => exact absurd hac hle

theorem pairCmp_le_trans {a1 a2 a3 b1 b2 b3 : Str}
    (h1 : (cmpStr a1 a2).then (cmpStr b1 b2) ≠ .gt)
    (h2 : (cmpStr a2 a3).then (cmpStr b2 b3) ≠ .gt) :
    (cmpStr a1 a3).then (cmpStr b1 b3) ≠ .gt := by
  cases h12 : cmpStr a1 a2 with
  | gt => rw [h12] at h1; simp [Ordering.then] at h1
  | lt =>
    have h2le : cmpStr a2 a3 ≠ .gt := by
      intro hg
      rw [hg] at h2
      exact h2 (by simp [Ordering.then])
    rw [cmpStr_lt_of_lt_of_le h12 h2le]
    simp [Ordering.then]
  | eq =>
    have ha : a1 = a2 := (cmpStr_eq_iff _ _).1 h12
    subst ha
    rw [h12] at h1
    simp only [Ordering.then] at h1
    cases h23 : cmpStr a1 a3 with
    | gt => rw [h23] at h2; simp [Ordering.then] at h2
    | lt => simp [Ordering.then]
    | eq =>
      rw [h23] at h2
      simp only [Ordering.then] at h2 ⊢
      exact cmpStr_le_trans _ _ _ h1 h2

theorem normalize_groups_eq_of_perm {l1 l2 : List Group} (hperm : l1.Perm l2)
    (hnd : (l1.map Group.name).Nodup) : normalize_groups l1 = normalize_groups l2 := by
  unfold normalize_groups
  refine
    sortByStable_eq_of_perm (fun a b : NormalizedGroup => cmpStr a.name b.name)
      (fun a b => cmpStr_swap _ _) (fun a b c => cmpStr_le_trans _ _ _)
      (hperm.map _) ?_
  rw [List.pairwise_map]
  have hpw : l1.Pairwise (fun a b => a.name ≠ b.name) := List.pairwise_map.1 hnd
  exact hpw.imp fun h he => h ((cmpStr_eq_iff _ _).1 he)

theorem normalize_lists_eq_of_perm {l1 l2 : List ListEntry}
    (lookup : List (Nat × Str)) (hperm : l1.Perm l2)
    (hnd : (l1.map fun l => (l.address, l.list_type)).Nodup) :
    normalize_lists l1 lookup = normalize_lists l2 lookup := by
  unfold normalize_lists
  refine
    sortByStable_eq_of_perm
      (fun a b : NormalizedList => (cmpStr a.address b.address).then (cmpStr a.list_type b.list_type))
      ?_ ?_ (hperm.map _) ?_
  · intro a b
    show (cmpStr b.address a.address).then (cmpStr b.list_type a.list_type) =
      ((cmpStr a.address b.address).then (cmpStr a.list_type b.list_type)).swap
    rw [ordering_then_swap, cmpStr_swap a.address b.address,
      cmpStr_swap a.list_type b.list_type]
  · intro a b c
    exact fun h1 h2 => pairCmp_le_trans h1 h2
  · refine List.pairwise_map.2 ?_
    have hpw : l1.Pairwise (fun a b => (a.address, a.list_type) ≠ (b.address, b.list_type)) :=
      List.pairwise_map.1 hnd
    refine hpw.imp ?_
    intro x y h he
    apply h
    have he' : (cmpStr x.address y.address).then (cmpStr x.list_type y.list_type) = .eq := he
    rcases (ordering_then_eq_iff _ _).1 he' with ⟨ha, hb⟩
    rw [(cmpStr_eq_iff _ _).1 ha, (cmpStr_eq_iff _ _).1 hb]

/-- C10, counterexample to the claim as stated: the normalizers sort by a key
that is *not* total on records (two groups may share a name), and the sort is
stable, so permuting two groups that share a name but differ in `enabled`
permutes the serialized fingerprint and changes the hash. -/
theorem c10_counterexample :
    ([⟨"A".toList, none, true, some 1⟩, ⟨"A".toList, none, false, some 2⟩] : List Group).Perm
        [⟨"A".toList, none, false, some 2⟩, ⟨"A".toList, none, true, some 1⟩] ∧
      hashNormalizedGroups [⟨"A".toList, none, true, some 1⟩, ⟨"A".toList, none, false, some 2⟩] ≠
        hashNormalizedGroups [⟨"A".toList, none, false, some 2⟩, ⟨"A".toList, none, true, some 1⟩] := by
  constructor
  · decide
  · decide

/-- C10, amended: the normalized-then-hashed fingerprints are
order-independent *provided the sort keys are distinct* — pairwise distinct
group names, and pairwise distinct (address, type) pairs for lists. Under
that proviso, permuting the fetched slice never changes
`hash_value(normalize_groups(..))` or `hash_value(normalize_lists(..))`. -/
theorem c10_amended_hash_order_independent :
    (∀ l1 l2 : List Group, l1.Perm l2 → (l1.map Group.name).Nodup →
      hashNormalizedGroups l1 = hashNormalizedGroups l2) ∧
    (∀ (lookup : List (Nat × Str)) (l1 l2 : List ListEntry), l1.Perm l2 →
      (l1.map fun l => (l.address, l.list_type)).Nodup →
      hashNormalizedLists l1 lookup = hashNormalizedLists l2 lookup) := by
  constructor
  · intro l1 l2 hperm hnd
    unfold hashNormalizedGroups
    rw [normalize_groups_eq_of_perm hperm hnd]
  · intro lookup l1 l2 hperm hnd
    unfold hashNormalizedLists
    rw [normalize_lists_eq_of_perm lookup hperm hnd]

/-- Witness for the amended C10 at concrete inputs. -/
theorem c10_amended_hash_order_independent_witness :
    hashNormalizedGroups
        [⟨"B".toList, none, true, some 1⟩, ⟨"A".toList, some "c".toList, false, some 2⟩] =
      hashNormalizedGroups
        [⟨"A".toList, some "c".toList, false, some 2⟩, ⟨"B".toList, none, true, some 1⟩] ∧
    hashNormalizedLists
        [⟨"x".toList, "block".toList, none, [7], true, none⟩,
          ⟨"y".toList, "allow".toList, none, [], false, none⟩]
        [(7, "Family".toList)] =
      hashNormalizedLists
        [⟨"y".toList, "allow".toList, none, [], false, none⟩,
          ⟨"x".toList, "block".toList, none, [7], true, none⟩]
        [(7, "Family".toList)] :=
  ⟨c10_amended_hash_order_independent.1 _ _ (by decide) (by decide),
    c10_amended_hash_order_independent.2 _ _ _ (by decide) (by decide)⟩

/-! ## C8 — logout -/

/-- C8, counterexample to the claim as stated: on an HTTP 500 response to the
invalidation call, `logout()` propagates the error through `?` *before* the
cache-clearing line, so it returns with the session token still cached —
contradicting "in every case the locally cached session token is cleared by
the time logout() returns". -/
theorem c8_counterexample :
    (logout (some "t".toList) (.response 500)).newToken ≠ none ∧
      (logout (some "t".toList) (.response 500)).ok = false := by
  constructor
  · decide
  · decide

/-- C8, amended: `logout()` is a remote no-op when no token is cached; with a
cached token it issues the invalidation call and treats 410, any 2xx, and 401
as successful logout, clearing the cache; any *other* non-error status also
falls through to the cache-clearing line; but on a transport failure or any
other 4xx/5xx status the error propagates and the cached token is left in
place (so the teardown is retried by a later logout). -/
theorem c8_amended_logout (token : Str) (remote : HttpOutcome) (status : Nat) :
    logout none remote = ⟨true, none, false⟩ ∧
    logout (some token) .transportError = ⟨false, some token, true⟩ ∧
    (status = 410 ∨ (200 ≤ status ∧ status ≤ 299) ∨ status = 401 →
      logout (some token) (.response status) = ⟨true, none, true⟩) ∧
    (status ≠ 410 → status ≠ 401 → 400 ≤ status → status ≤ 599 →
      logout (some token) (.response status) = ⟨false, some token, true⟩) ∧
    (¬(200 ≤ status ∧ status ≤ 299) → status < 400 →
      logout (some token) (.response status) = ⟨true, none, true⟩) := by
  refine ⟨rfl, rfl, ?_, ?_, ?_⟩
  · intro h
    simp only [logout]
    rcases h with h | h | h
    · subst h; rfl
    · have : (200 ≤ status && status ≤ 299) = true := by
        simp [h.1, h.2]
      rw [if_pos (by simp [this])]
    · subst h; rfl
  · intro h410 h401 h400 h599
    simp only [logout]
    rw [if_neg, if_pos]
    · simp [h400, h599]
    · simp only [Bool.or_eq_true, beq_iff_eq, Bool.and_eq_true, decide_eq_true_eq]
      push_neg
      exact ⟨⟨h410, fun h200 => by omega⟩, h401⟩
  · intro h2xx hlt
    simp only [logout]
    by_cases h2 : (status == 410 || (200 ≤ status && status ≤ 299) || status == 401) = true
    · rw [if_pos h2]
    · rw [if_neg h2, if_neg]
      simp only [Bool.and_eq_true, decide_eq_true_eq]
      intro hc
      omega

/-- Witness for the amended C8 at concrete inputs. -/
theorem c8_amended_logout_witness :
    logout (some "t".toList) (.response 410) = ⟨true, none, true⟩ ∧
      logout (some "t".toList) (.response 503) = ⟨false, some "t".toList, true⟩ :=
  ⟨(c8_amended_logout "t".toList .transportError 410).2.2.1 (Or.inl rfl),
    (c8_amended_logout "t".toList .transportError 503).2.2.2.1 (by decide) (by decide)
      (by decide) (by decide)⟩

/-! ## C9 — readiness polling with capped backoff -/

theorem backoffMs_le (n : Nat) : backoffMs n ≤ 1000 := Nat.min_le_right _ _

theorem backoffMs_eq (n : Nat) : backoffMs n = min (2 ^ n * 50) 1000 := by
  unfold backoffMs
  rcases le_or_lt n 6 with h | h
  · rw [Nat.min_eq_left h]
  · rw [Nat.min_eq_right (Nat.le_of_lt h)]
    have h6 : (2 ^ 6 * 50 : Nat) ≥ 1000 := by norm_num
    have hn : (2 ^ 6 : Nat) ≤ 2 ^ n := Nat.pow_le_pow_right (by norm_num) (Nat.le_of_lt h)
    have hn' : (2 ^ 6 * 50 : Nat) ≤ 2 ^ n * 50 := Nat.mul_le_mul_right _ hn
    omega

theorem waitForReadyGo_success (timeout : Nat) :
    ∀ (pre : List (Bool × Nat)) (a : Nat) (x : Nat) (post : List (Bool × Nat)),
      (∀ e ∈ pre, e.1 = false ∧ e.2 < timeout) →
      waitForReadyGo timeout a (pre ++ (true, x) :: post) =
        (some true, (List.range pre.length).map fun i => backoffMs (a + 1 + i))
  | [], a, x, post, _ => by simp [waitForReadyGo]
  | (b, e) :: pre, a, x, post, hpre => by
    rcases hpre (b, e) (List.mem_cons_self _ _) with ⟨hb, he⟩
    subst hb
    simp only [List.cons_append, waitForReadyGo, Bool.false_eq_true, if_false,
      Nat.not_le_of_lt he, if_neg (Nat.not_le_of_lt he), List.append_eq]
    rw [waitForReadyGo_success timeout pre (a + 1) x post
      (fun f hf => hpre f (List.mem_cons_of_mem _ hf))]
    simp only [List.length_cons, List.range_succ_eq_map, List.map_cons, List.map_map]
    refine congrArg _ ?_
    refine congrArg₂ List.cons ?_ ?_
    · refine congrArg _ ?_
      omega
    · apply List.map_congr_left
      intro i _
      simp only [Function.comp]
      refine congrArg _ ?_
      omega

theorem waitForReadyGo_timeout (timeout : Nat) :
    ∀ (pre : List (Bool × Nat)) (a : Nat) (x : Nat) (post : List (Bool × Nat)),
      (∀ e ∈ pre, e.1 = false ∧ e.2 < timeout) → timeout ≤ x →
      waitForReadyGo timeout a (pre ++ (false, x) :: post) =
        (some false, (List.range pre.length).map fun i => backoffMs (a + 1 + i))
  | [], a, x, post, _, hx => by
    simp [waitForReadyGo, hx]
  | (b, e) :: pre, a, x, post, hpre, hx => by
    rcases hpre (b, e) (List.mem_cons_self _ _) with ⟨hb, he⟩
    subst hb
    simp only [List.cons_append, waitForReadyGo, Bool.false_eq_true, if_false,
      if_neg (Nat.not_le_of_lt he), List.append_eq]
    rw [waitForReadyGo_timeout timeout pre (a + 1) x post
      (fun f hf => hpre f (List.mem_cons_of_mem _ hf)) hx]
    simp only [List.length_cons, List.range_succ_eq_map, List.map_cons, List.map_map]
    refine congrArg _ ?_
    refine congrArg₂ List.cons ?_ ?_
    · refine congrArg _ ?_
      omega
    · apply List.map_congr_left
      intro i _
      simp only [Function.comp]
      refine congrArg _ ?_
      omega

theorem waitForReadyGo_sleeps_le (timeout : Nat) :
    ∀ (trace : List (Bool × Nat)) (a : Nat) (s : Nat),
      s ∈ (waitForReadyGo timeout a trace).2 → s ≤ 1000
  | [], a, s, hs => by simp [waitForReadyGo] at hs
  | (b, e) :: trace, a, s, hs => by
    by_cases hb : b = true
    · subst hb
      simp [waitForReadyGo] at hs
    · have hb' : b = false := by simpa using hb
      subst hb'
      by_cases he : e ≥ timeout
      · simp [waitForReadyGo, he] at hs
      · simp only [waitForReadyGo, Bool.false_eq_true, if_false, if_neg he,
          List.mem_cons] at hs
        rcases hs with hs | hs
        · rw [hs]; exact backoffMs_le _
        · exact waitForReadyGo_sleeps_le timeout trace (a + 1) s hs

theorem waitForReadyGo_err_elim (timeout : Nat) :
    ∀ (trace : List (Bool × Nat)) (a : Nat),
      (waitForReadyGo timeout a trace).1 = some false →
      ∃ pre x post, trace = pre ++ (false, x) :: post ∧
        (∀ e ∈ pre, e.1 = false ∧ e.2 < timeout) ∧ timeout ≤ x
  | [], a, h => by simp [waitForReadyGo] at h
  | (b, e) :: trace, a, h => by
    by_cases hb : b = true
    · subst hb
      simp [waitForReadyGo] at h
    · have hb' : b = false := by simpa using hb
      subst hb'
      by_cases he : e ≥ timeout
      · exact ⟨[], e, trace, by simp, by simp, he⟩
      · simp only [waitForReadyGo, Bool.false_eq_true, if_false, if_neg he] at h
        rcases waitForReadyGo_err_elim timeout trace (a + 1) h with
          ⟨pre, x, post, htr, hpre, hx⟩
        refine ⟨(false, e) :: pre, x, post, by rw [htr, List.cons_append], ?_, hx⟩
        intro f hf
        rcases List.mem_cons.1 hf with hf | hf
        · rw [hf]
          exact ⟨rfl, Nat.lt_of_not_le he⟩
        · exact hpre f hf

/-- C9: `wait_for_ready` sleeps exactly `min(2^n * 50, 1000)` milliseconds
after the `n`-th failed attempt (never more than 1000 ms), returns success as
soon as an attempt succeeds, and returns the readiness-timeout error exactly
when an attempt fails with the cumulative elapsed time at or past the given
timeout (all earlier attempts having failed early). -/
theorem c9_wait_for_ready :
    (∀ n, 1 ≤ n → backoffMs n = min (2 ^ n * 50) 1000 ∧ backoffMs n ≤ 1000) ∧
    (∀ (timeout : Nat) (pre : List (Bool × Nat)) (x : Nat) (post : List (Bool × Nat)),
      (∀ e ∈ pre, e.1 = false ∧ e.2 < timeout) →
      wait_for_ready timeout (pre ++ (true, x) :: post) =
        (some true, (List.range pre.length).map fun i => backoffMs (i + 1))) ∧
    (∀ (timeout : Nat) (pre : List (Bool × Nat)) (x : Nat) (post : List (Bool × Nat)),
      (∀ e ∈ pre, e.1 = false ∧ e.2 < timeout) → timeout ≤ x →
      wait_for_ready timeout (pre ++ (false, x) :: post) =
        (some false, (List.range pre.length).map fun i => backoffMs (i + 1))) ∧
    (∀ (timeout : Nat) (trace : List (Bool × Nat)) (s : Nat),
      s ∈ (wait_for_ready timeout trace).2 → s ≤ 1000) ∧
    (∀ (timeout : Nat) (trace : List (Bool × Nat)),
      (wait_for_ready timeout trace).1 = some false →
      ∃ pre x post, trace = pre ++ (false, x) :: post ∧
        (∀ e ∈ pre, e.1 = false ∧ e.2 < timeout) ∧ timeout ≤ x) := by
  refine ⟨fun n _ => ⟨backoffMs_eq n, backoffMs_le n⟩, ?_, ?_, ?_, ?_⟩
  · intro timeout pre x post hpre
    unfold wait_for_ready
    rw [waitForReadyGo_success timeout pre 0 x post hpre]
    refine congrArg _ ?_
    apply List.map_congr_left
    intro i _
    refine congrArg _ ?_
    omega
  · intro timeout pre x post hpre hx
    unfold wait_for_ready
    rw [waitForReadyGo_timeout timeout pre 0 x post hpre hx]
    refine congrArg _ ?_
    apply List.map_congr_left
    intro i _
    refine congrArg _ ?_
    omega
  · intro timeout trace s hs
    exact waitForReadyGo_sleeps_le timeout trace 0 s hs
  · intro timeout trace h
    exact waitForReadyGo_err_elim timeout trace 0 h

/-- Witness for C9 at concrete inputs: two early failures, then success,
sleeping 100 ms and 200 ms; and a failure at 1500 ms elapsed against a
1000 ms budget, which times out after one 100 ms sleep. -/
theorem c9_wait_for_ready_witness :
    wait_for_ready 1000 [(false, 10), (false, 300), (true, 600)] =
        (some true, [100, 200]) ∧
      wait_for_ready 1000 [(false, 10), (false, 1500)] = (some false, [100]) := by
  constructor
  · have h :=
      c9_wait_for_ready.2.1 1000 [(false, 10), (false, 300)] 600 [] (by decide)
    simpa using h
  · have h :=
      c9_wait_for_ready.2.2.1 1000 [(false, 10)] 1500 [] (by decide) (by decide)
    simpa using h

/-! ## C6, C7 — change gating and tracker lifecycle -/

theorem hashMapGet_foldl [BEq κ] (k : κ) :
    ∀ (l : List (κ × V)) (a : Option V),
      l.foldl (fun acc e => if e.1 == k then some e.2 else acc) a =
        match hashMapGet l k with
        | some v => some v
        | none => a
  | [], a => by simp [hashMapGet]
  | e :: l, a => by
    show List.foldl _ (if e.1 == k then some e.2 else a) l = _
    rw [hashMapGet_foldl k l (if e.1 == k then some e.2 else a)]
    have hc : hashMapGet (e :: l) k =
        match hashMapGet l k with
        | some v => some v
        | none => if e.1 == k then some e.2 else none := by
      show List.foldl _ (if e.1 == k then some e.2 else none) l = _
      rw [hashMapGet_foldl k l (if e.1 == k then some e.2 else none)]
    rw [hc]
    cases hashMapGet l k with
    | some v => rfl
    | none => by_cases he : e.1 == k <;> simp [he]

theorem tracker_update_get (t : HashTracker) (k : Str) (h : Nat) :
    hashMapGet (tracker_update t k h) k = some h := by
  unfold tracker_update hashMapGet
  rw [List.foldl_append]
  simp

theorem has_changed_iff (t : HashTracker) (k : Str) (h : Nat) :
    has_changed t k h = true ↔
      hashMapGet t k = none ∨ ∃ p, hashMapGet t k = some p ∧ p ≠ h := by
  unfold has_changed
  cases hg : hashMapGet t k with
  | none => simp
  | some p =>
    simp only [bne_iff_ne, ne_eq]
    constructor
    · intro hp
      exact Or.inr ⟨p, rfl, hp⟩
    · rintro (hn | ⟨q, hq, hne⟩)
      · exact absurd hn (Option.some_ne_none p)
      · rw [Option.some.inj hq]
        exact hne

theorem has_changed_false_iff (t : HashTracker) (k : Str) (h : Nat) :
    has_changed t k h = false ↔ hashMapGet t k = some h := by
  unfold has_changed
  cases hg : hashMapGet t k with
  | none => simp
  | some p => simp [bne_eq_false_iff_eq]

theorem configSyncBranch_skip (host : Str) (h : Nat) (pOk grav : Bool)
    (t : HashTracker) (hc : has_changed t (configKey host) h = false) :
    (configSyncBranch host (some h) pOk grav t).1 = [] := by
  simp [configSyncBranch, hc]

theorem groupsSyncBranch_skip (host : Str) (mg : List Group) (h : Nat)
    (sf : Option (List Group)) (af : Option Nat) (t : HashTracker)
    (hc : has_changed t (groupsKey host) h = false) :
    (groupsSyncBranch host mg (some h) sf af t).1 = [] := by
  by_cases he : mg.isEmpty <;> simp [groupsSyncBranch, he, hc]

theorem listsSyncBranch_skip (host : Str) (ml : List ListEntry)
    (mgl : List (Nat × Str)) (h : Nat) (sf : Option (List Group))
    (sl : Option (List ListEntry)) (sgo : Bool) (af : Option Nat) (t : HashTracker)
    (hc : has_changed t (listsKey host) h = false) :
    (listsSyncBranch host ml mgl (some h) sf sl sgo af t).1 = [] := by
  by_cases he : ml.isEmpty <;> simp [listsSyncBranch, he, hc]

theorem configSyncBranch_get (host : Str) (h : Nat) (grav : Bool) (t : HashTracker) :
    hashMapGet (configSyncBranch host (some h) true grav t).2 (configKey host) = some h := by
  unfold configSyncBranch
  by_cases hc : has_changed t (configKey host) h
  · simp only [hc, Bool.not_true, Bool.false_eq_true, if_false, if_true]
    exact tracker_update_get t (configKey host) h
  · have hc' : has_changed t (configKey host) h = false := by simpa using hc
    simp only [hc', Bool.not_false, if_true]
    exact (has_changed_false_iff t (configKey host) h).1 hc'

theorem groupsSyncBranch_get (host : Str) (mg sg : List Group) (h : Nat)
    (t : HashTracker) (hne : mg ≠ []) :
    hashMapGet (groupsSyncBranch host mg (some h) (some sg) none t).2 (groupsKey host) =
      some h := by
  unfold groupsSyncBranch
  rw [if_neg (by simpa using hne)]
  by_cases hc : has_changed t (groupsKey host) h
  · simp only [hc, Bool.not_true, Bool.false_eq_true, if_false]
    exact tracker_update_get t (groupsKey host) h
  · have hc' : has_changed t (groupsKey host) h = false := by simpa using hc
    simp only [hc', Bool.not_false, if_true]
    exact (has_changed_false_iff t (groupsKey host) h).1 hc'

theorem listsSyncBranch_get (host : Str) (ml : List ListEntry)
    (mgl : List (Nat × Str)) (sg : List Group) (sl : List ListEntry) (sgo : Bool)
    (h : Nat) (t : HashTracker) (hne : ml ≠ []) :
    hashMapGet
        (listsSyncBranch host ml mgl (some h) (some sg) (some sl) sgo none t).2
        (listsKey host) = some h := by
  unfold listsSyncBranch
  rw [if_neg (by simpa using hne)]
  by_cases hc : has_changed t (listsKey host) h
  · simp only [hc, Bool.not_true, Bool.false_eq_true, if_false]
    exact tracker_update_get t (listsKey host) h
  · have hc' : has_changed t (listsKey host) h = false := by simpa using hc
    simp only [hc', Bool.not_false, if_true]
    exact (has_changed_false_iff t (listsKey host) h).1 hc'

/-- C6: `has_changed(key, hash)` is true exactly when no record is stored for
the key or the stored hash differs; consequently, after a pass for a
(category, host) pair succeeds with hash `h` (or is skipped as unchanged),
the next pass presenting the same `h` performs zero remote write calls for
that pair — for each of the config, groups and lists branches. -/
theorem c6_change_gating :
    (∀ (tracker : HashTracker) (key : Str) (h : Nat),
      has_changed tracker key h = true ↔
        (hashMapGet tracker key = none ∨
          ∃ p, hashMapGet tracker key = some p ∧ p ≠ h)) ∧
    (∀ (host : Str) (h : Nat) (grav : Bool) (t : HashTracker) (pOk grav' : Bool),
      (configSyncBranch host (some h) pOk grav'
        (configSyncBranch host (some h) true grav t).2).1 = []) ∧
    (∀ (host : Str) (h : Nat) (mg sg mg' : List Group)
      (sf' : Option (List Group)) (af' : Option Nat) (t : HashTracker), mg ≠ [] →
      (groupsSyncBranch host mg' (some h) sf' af'
        (groupsSyncBranch host mg (some h) (some sg) none t).2).1 = []) ∧
    (∀ (host : Str) (h : Nat) (ml ml' : List ListEntry) (mgl mgl' : List (Nat × Str))
      (sg : List Group) (sl : List ListEntry) (sgo sgo' : Bool)
      (sf' : Option (List Group)) (sl' : Option (List ListEntry)) (af' : Option Nat)
      (t : HashTracker), ml ≠ [] →
      (listsSyncBranch host ml' mgl' (some h) sf' sl' sgo' af'
        (listsSyncBranch host ml mgl (some h) (some sg) (some sl) sgo none t).2).1 = []) := by
  refine ⟨has_changed_iff, ?_, ?_, ?_⟩
  · intro host h grav t pOk grav'
    exact configSyncBranch_skip host h pOk grav' _
      ((has_changed_false_iff _ _ _).2 (configSyncBranch_get host h grav t))
  · intro host h mg sg mg' sf' af' t hne
    exact groupsSyncBranch_skip host mg' h sf' af' _
      ((has_changed_false_iff _ _ _).2 (groupsSyncBranch_get host mg sg h t hne))
  · intro host h ml ml' mgl mgl' sg sl sgo sgo' sf' sl' af' t hne
    exact listsSyncBranch_skip host ml' mgl' h sf' sl' sgo' af' _
      ((has_changed_false_iff _ _ _).2 (listsSyncBranch_get host ml mgl sg sl sgo h t hne))

/-- Witness for C6 at concrete inputs: a first config pass patches and
records the hash; the immediate re-run with the same hash issues no write. -/
theorem c6_change_gating_witness :
    (configSyncBranch "h2".toList (some 42) true false
      (configSyncBranch "h2".toList (some 42) true false []).2).1 = [] ∧
    (groupsSyncBranch "h2".toList [⟨"A".toList, none, true, some 1⟩] (some 7) none none
      (groupsSyncBranch "h2".toList [⟨"A".toList, none, true, some 1⟩] (some 7)
        (some []) none []).2).1 = [] :=
  ⟨c6_change_gating.2.1 "h2".toList 42 false [] true false,
    c6_change_gating.2.2.1 "h2".toList 7 [⟨"A".toList, none, true, some 1⟩] []
      [⟨"A".toList, none, true, some 1⟩] none none [] (by decide)⟩

/-- C7: the stored hash record for `{category}:{host}` is written only on the
paths where the corresponding apply succeeded; every failing path (hash
failure, fetch failure, apply failure) leaves the tracker exactly as it was,
so the failed apply is retried next cycle. -/
theorem c7_tracker_update_only_on_success :
    (∀ (host : Str) (pOk grav : Bool) (t : HashTracker),
      (configSyncBranch host none pOk grav t).2 = t) ∧
    (∀ (host : Str) (h : Nat) (grav : Bool) (t : HashTracker),
      (configSyncBranch host (some h) false grav t).2 = t) ∧
    (∀ (host : Str) (h : Nat) (grav : Bool) (t : HashTracker),
      (configSyncBranch host (some h) true grav t).2 =
        if has_changed t (configKey host) h then
          tracker_update t (configKey host) h
        else t) ∧
    (∀ (host : Str) (mg : List Group) (sf : Option (List Group)) (af : Option Nat)
      (t : HashTracker), (groupsSyncBranch host mg none sf af t).2 = t) ∧
    (∀ (host : Str) (mg : List Group) (h : Nat) (af : Option Nat) (t : HashTracker),
      (groupsSyncBranch host mg (some h) none af t).2 = t) ∧
    (∀ (host : Str) (mg sg : List Group) (h : Nat) (i : Nat) (t : HashTracker),
      (groupsSyncBranch host mg (some h) (some sg) (some i) t).2 = t) ∧
    (∀ (host : Str) (mg sg : List Group) (h : Nat) (t : HashTracker),
      (groupsSyncBranch host mg (some h) (some sg) none t).2 =
        if mg.isEmpty then t
        else if has_changed t (groupsKey host) h then
          tracker_update t (groupsKey host) h
        else t) ∧
    (∀ (host : Str) (ml : List ListEntry) (mgl : List (Nat × Str))
      (sf : Option (List Group)) (sl : Option (List ListEntry)) (sgo : Bool)
      (af : Option Nat) (t : HashTracker),
      (listsSyncBranch host ml mgl none sf sl sgo af t).2 = t) ∧
    (∀ (host : Str) (ml : List ListEntry) (mgl : List (Nat × Str)) (h : Nat)
      (sl : Option (List ListEntry)) (sgo : Bool) (af : Option Nat) (t : HashTracker),
      (listsSyncBranch host ml mgl (some h) none sl sgo af t).2 = t) ∧
    (∀ (host : Str) (ml : List ListEntry) (mgl : List (Nat × Str)) (h : Nat)
      (sg : List Group) (sgo : Bool) (af : Option Nat) (t : HashTracker),
      (listsSyncBranch host ml mgl (some h) (some sg) none sgo af t).2 = t) ∧
    (∀ (host : Str) (ml : List ListEntry) (mgl : List (Nat × Str)) (h : Nat)
      (sg : List Group) (sl : List ListEntry) (sgo : Bool) (i : Nat) (t : HashTracker),
      (listsSyncBranch host ml mgl (some h) (some sg) (some sl) sgo (some i) t).2 = t) ∧
    (∀ (host : Str) (ml : List ListEntry) (mgl : List (Nat × Str)) (h : Nat)
      (sg : List Group) (sl : List ListEntry) (sgo : Bool) (t : HashTracker),
      (listsSyncBranch host ml mgl (some h) (some sg) (some sl) sgo none t).2 =
        if ml.isEmpty then t
        else if has_changed t (listsKey host) h then
          tracker_update t (listsKey host) h
        else t) := by
  refine ⟨?_, ?_, ?_, ?_, ?_, ?_, ?_, ?_, ?_, ?_, ?_, ?_⟩
  · intro host pOk grav t
    rfl
  · intro host h grav t
    unfold configSyncBranch
    by_cases hc : has_changed t (configKey host) h <;> simp [hc]
  · intro host h grav t
    unfold configSyncBranch
    by_cases hc : has_changed t (configKey host) h <;> simp [hc]
  · intro host mg sf af t
    unfold groupsSyncBranch
    by_cases he : mg.isEmpty <;> simp [he]
  · intro host mg h af t
    unfold groupsSyncBranch
    by_cases he : mg.isEmpty
    · simp [he]
    · by_cases hc : has_changed t (groupsKey host) h <;> simp [he, hc]
  · intro host mg sg h i t
    unfold groupsSyncBranch
    by_cases he : mg.isEmpty
    · simp [he]
    · by_cases hc : has_changed t (groupsKey host) h <;> simp [he, hc]
  · intro host mg sg h t
    unfold groupsSyncBranch
    by_cases he : mg.isEmpty
    · simp [he]
    · by_cases hc : has_changed t (groupsKey host) h <;> simp [he, hc]
  · intro host ml mgl sf sl sgo af t
    unfold listsSyncBranch
    by_cases he : ml.isEmpty <;> simp [he]
  · intro host ml mgl h sl sgo af t
    unfold listsSyncBranch
    by_cases he : ml.isEmpty
    · simp [he]
    · by_cases hc : has_changed t (listsKey host) h <;> simp [he, hc]
  · intro host ml mgl h sg sgo af t
    unfold listsSyncBranch
    by_cases he : ml.isEmpty
    · simp [he]
    · by_cases hc : has_changed t (listsKey host) h <;> simp [he, hc]
  · intro host ml mgl h sg sl sgo i t
    unfold listsSyncBranch
    by_cases he : ml.isEmpty
    · simp [he]
    · by_cases hc : has_changed t (listsKey host) h <;> simp [he, hc]
  · intro host ml mgl h sg sl sgo t
    unfold listsSyncBranch
    by_cases he : ml.isEmpty
    · simp [he]
    · by_cases hc : has_changed t (listsKey host) h <;> simp [he, hc]

/-! ## C4 — group reconciliation -/

theorem hashMapGet_cons [BEq κ] (e : κ × V) (l : List (κ × V)) (k : κ) :
    hashMapGet (e :: l) k =
      match hashMapGet l k with
      | some v => some v
      | none => if e.1 == k then some e.2 else none := by
  show List.foldl _ (if e.1 == k then some e.2 else none) l = _
  rw [hashMapGet_foldl k l (if e.1 == k then some e.2 else none)]

theorem hashMapGet_eq_none [BEq κ] (l : List (κ × V)) (k : κ)
    (h : ∀ e ∈ l, (e.1 == k) = false) : hashMapGet l k = none := by
  induction l with
  | nil => rfl
  | cons e l ih =>
    rw [hashMapGet_cons, ih (fun f hf => h f (List.mem_cons_of_mem _ hf)),
      h e (List.mem_cons_self _ _)]
    simp

theorem hashMapGet_eq_find [BEq κ] [LawfulBEq κ] (l : List (κ × V)) (k : κ)
    (hnd : (l.map Prod.fst).Nodup) :
    hashMapGet l k = Prod.snd <$> l.find? (fun e => e.1 == k) := by
  induction l with
  | nil => rfl
  | cons e l ih =>
    rw [hashMapGet_cons]
    rcases List.pairwise_cons.1 hnd with ⟨hhd, htl⟩
    by_cases hk : (e.1 == k) = true
    · have hkeq : e.1 = k := eq_of_beq hk
      have hnone : hashMapGet l k = none := by
        apply hashMapGet_eq_none
        intro f hf
        have : e.1 ≠ f.1 := hhd f.1 (List.mem_map_of_mem Prod.fst hf)
        rw [hkeq] at this
        exact beq_eq_false_iff_ne.2 fun hfk => this hfk.symm
      rw [hnone, List.find?_cons]
      simp [hk]
    · have hk' : (e.1 == k) = false := by simpa using hk
      rw [List.find?_cons]
      simp only [hk']
      rw [← ih htl]
      cases hashMapGet l k <;> simp [hk']

/-- C4: group reconciliation issues exactly one update per main group whose
name exists on the secondary with differing (comment, enabled), exactly one
create per main group absent from the secondary, and nothing else — in
particular never a delete. Stated as: the emitted action list coincides with
the specification's reconciliation (one action decided per main group by a
plain name lookup), and no emitted action is a delete. -/
theorem c4_group_reconciliation (main_groups secondary_groups : List Group)
    (hnd : (secondary_groups.map Group.name).Nodup) :
    sync_groups main_groups secondary_groups =
        specGroupsReconcile main_groups secondary_groups ∧
      ∀ a ∈ sync_groups main_groups secondary_groups, ∀ n, a ≠ .delete n := by
  have hmap : ∀ name : Str,
      hashMapGet (secondary_groups.map fun g => (g.name, g)) name =
        secondary_groups.find? fun s => s.name == name := by
    intro name
    rw [hashMapGet_eq_find]
    · rw [List.find?_map]
      have : (secondary_groups.find? ((fun e : Str × Group => e.1 == name) ∘
          fun g => (g.name, g))) = secondary_groups.find? fun s => s.name == name := rfl

      rw [this]
      cases secondary_groups.find? fun s => s.name == name <;> simp
    · rw [List.map_map]
      exact hnd
  constructor
  · unfold sync_groups specGroupsReconcile
    apply List.flatMap_congr
    intro g _
    rw [hmap g.name]
    cases secondary_groups.find? fun s => s.name == g.name with
    | none => rfl
    | some existing =>
      show (if (existing.comment != g.comment || existing.enabled != g.enabled) = true
          then [GroupAction.update existing.name g] else []) =
        if existing.comment ≠ g.comment ∨ existing.enabled ≠ g.enabled
          then [GroupAction.update existing.name g] else []
      by_cases hc : existing.comment ≠ g.comment ∨ existing.enabled ≠ g.enabled
      · rw [if_pos ?_, if_pos hc]
        rcases hc with hc | hc
        · simp [bne_iff_ne, hc]
        · simp [bne_iff_ne, hc]
      · rw [if_neg ?_, if_neg hc]
        push_neg at hc
        simp [hc.1, hc.2]
  · intro a ha n
    unfold sync_groups at ha
    rcases List.mem_flatMap.1 ha with ⟨g, -, hmem⟩
    revert hmem
    cases hashMapGet (secondary_groups.map fun g => (g.name, g)) g.name with
    | none =>
      intro hmem
      rw [List.mem_singleton.1 hmem]
      exact fun h => GroupAction.noConfusion h
    | some existing =>
      intro hmem
      have hmem' : a ∈
          if (existing.comment != g.comment || existing.enabled != g.enabled) = true
            then [GroupAction.update existing.name g] else [] := hmem
      by_cases hc :
          (existing.comment != g.comment || existing.enabled != g.enabled) = true
      · rw [if_pos hc] at hmem'
        rw [List.mem_singleton.1 hmem']
        exact fun h => GroupAction.noConfusion h
      · rw [if_neg hc] at hmem'
        exact absurd hmem' (List.not_mem_nil a)

/-- Witness for C4 at concrete inputs: one matching group needing an update
and one missing group needing a create. -/
theorem c4_group_reconciliation_witness :
    sync_groups
        [⟨"A".toList, none, true, some 1⟩, ⟨"B".toList, some "c".toList, true, some 2⟩]
        [⟨"A".toList, none, false, some 9⟩] =
      specGroupsReconcile
        [⟨"A".toList, none, true, some 1⟩, ⟨"B".toList, some "c".toList, true, some 2⟩]
        [⟨"A".toList, none, false, some 9⟩] ∧
    ∀ a ∈ sync_groups
        [⟨"A".toList, none, true, some 1⟩, ⟨"B".toList, some "c".toList, true, some 2⟩]
        [⟨"A".toList, none, false, some 9⟩], ∀ n, a ≠ .delete n :=
  c4_group_reconciliation _ _ (by decide)

/-! ## C5 — group-name remapping for lists -/

theorem dedupAdj_mem : ∀ (l : List Nat) (a : Nat), a ∈ dedupAdj l ↔ a ∈ l
  | [], a => Iff.rfl
  | [x], a => Iff.rfl
  | x :: y :: rest, a => by
    unfold dedupAdj
    by_cases hxy : x = y
    · rw [if_pos hxy, dedupAdj_mem (y :: rest) a]
      subst hxy
      simp
    · rw [if_neg hxy]
      simp only [List.mem_cons]
      rw [dedupAdj_mem (y :: rest) a]
      simp

theorem sortByStable_mem (le : α → α → Bool) (l : List α) (a : α) :
    a ∈ sortByStable le l ↔ a ∈ l :=
  (sortByStable_perm le l).mem_iff

/-- C5: each numeric group id of a main list is carried over by translating
it to a name through main's id→name table and re-resolving that name in the
secondary's name→id table; a resolved name contributes the secondary's id
(never the main id verbatim), an unresolved name contributes the default
group 0, and if group sync is disabled while the list references any
non-default group the whole membership collapses to the default group 0 — in
every case `groups_for_list` returns a membership rather than an error. -/
theorem c5_group_membership_mapping (list : ListEntry)
    (main_group_lookup : List (Nat × Str))
    (secondary_group_lookup : List (Str × Nat)) (sync_groups_opt : Bool) :
    (sync_groups_opt = false →
      (∃ g ∈ (if list.groups.isEmpty then [0] else list.groups), g ≠ 0) →
      groups_for_list list main_group_lookup secondary_group_lookup sync_groups_opt =
        [0]) ∧
    ((sync_groups_opt = true ∨
        ∀ g ∈ (if list.groups.isEmpty then [0] else list.groups), g = 0) →
      (∀ gid ∈ (if list.groups.isEmpty then [0] else list.groups), ∀ sid,
        hashMapGet secondary_group_lookup
            ((hashMapGet main_group_lookup gid).getD (idFallbackName gid)) = some sid →
        sid ∈ groups_for_list list main_group_lookup secondary_group_lookup
          sync_groups_opt) ∧
      (∀ gid ∈ (if list.groups.isEmpty then [0] else list.groups),
        hashMapGet secondary_group_lookup
            ((hashMapGet main_group_lookup gid).getD (idFallbackName gid)) = none →
        0 ∈ groups_for_list list main_group_lookup secondary_group_lookup
          sync_groups_opt) ∧
      (∀ x ∈ groups_for_list list main_group_lookup secondary_group_lookup
          sync_groups_opt,
        x = 0 ∨ ∃ gid ∈ (if list.groups.isEmpty then [0] else list.groups),
          hashMapGet secondary_group_lookup
            ((hashMapGet main_group_lookup gid).getD (idFallbackName gid)) = some x)) := by
  constructor
  · intro hs ⟨g, hg, hg0⟩
    unfold groups_for_list
    rw [if_pos]
    subst hs
    simp only [Bool.not_false, Bool.true_and]
    exact List.any_eq_true.2 ⟨g, hg, by simpa using hg0⟩
  · intro hok
    have hcond :
        (!sync_groups_opt &&
          (if list.groups.isEmpty then [0] else list.groups).any fun g => g != 0) =
          false := by
      rcases hok with hs | hz
      · rw [hs]
        simp
      · rcases hb : (!sync_groups_opt) with _ | _
        · simp
        · simp only [Bool.true_and]
          rw [List.any_eq_false]
          intro g hg
          simpa using hz g hg
    have hmem : ∀ x,
        (x ∈ groups_for_list list main_group_lookup secondary_group_lookup
            sync_groups_opt) ↔
          x ∈ (if list.groups.isEmpty then [0] else list.groups).map fun gid =>
            match hashMapGet secondary_group_lookup
                ((hashMapGet main_group_lookup gid).getD (idFallbackName gid)) with
            | some sec_id => sec_id
            | none => 0 := by
      intro x
      unfold groups_for_list
      rw [if_neg]
      · rw [dedupAdj_mem, sortByStable_mem]
      · rw [hcond]
        simp
    refine ⟨?_, ?_, ?_⟩
    · intro gid hgid sid hsid
      rw [hmem]
      refine List.mem_map.2 ⟨gid, hgid, ?_⟩
      rw [hsid]
    · intro gid hgid hnone
      rw [hmem]
      refine List.mem_map.2 ⟨gid, hgid, ?_⟩
      rw [hnone]
    · intro x hx
      rw [hmem] at hx
      rcases List.mem_map.1 hx with ⟨gid, hgid, hval⟩
      revert hval
      cases hq : hashMapGet secondary_group_lookup
          ((hashMapGet main_group_lookup gid).getD (idFallbackName gid)) with
      | none =>
        intro hval
        have hval' : (0 : Nat) = x := hval
        exact Or.inl hval'.symm
      | some sec_id =>
        intro hval
        have hval' : sec_id = x := hval
        exact Or.inr ⟨gid, hgid, by rw [hq, hval']⟩

/-- Witness for C5: main group 7 named "Family" resolves to the secondary's
id 3; with group sync enabled the list's membership contains 3 (not 7). -/
theorem c5_group_membership_mapping_witness :
    3 ∈ groups_for_list ⟨"x".toList, "block".toList, none, [7], true, none⟩
      [(7, "Family".toList)] [("Family".toList, 3)] true :=
  (c5_group_membership_mapping ⟨"x".toList, "block".toList, none, [7], true, none⟩
      [(7, "Family".toList)] [("Family".toList, 3)] true).2
    (Or.inl rfl) |>.1 7 (by decide) 3 (by decide)

/-! ## C1 — Teleporter snapshot idempotence short-circuit -/

/-- C1, counterexample to the claim as stated. A three-cycle run with one
Teleporter secondary: cycle 1 downloads archive `[0]`, uploads it to the
secondary successfully (applied to all, hash of `[0]` recorded); cycle 2
downloads a different archive `[1]` and its upload fails; cycle 3 downloads
`[0]` again — its content hash *equals the hash recorded after the last
cycle in which the snapshot was successfully applied to all Snapshot-mode
secondaries* (cycle 1), yet the orchestrator uploads again (the skip
comparison is against the immediately previous download, whose hash was
overwritten to that of `[1]`). -/
theorem c1_counterexample :
    ((runTeleporterCycles ⟨none, false⟩
        [(some [0], [⟨some .teleporter, false, true, true⟩]),
          (some [1], [⟨some .teleporter, false, false, true⟩]),
          (some [0], [⟨some .teleporter, false, true, true⟩])]).get? 0 =
      some (⟨some (teleporter_backup_hash [0]), true⟩, [.upload 0])) ∧
    ((runTeleporterCycles ⟨none, false⟩
        [(some [0], [⟨some .teleporter, false, true, true⟩]),
          (some [1], [⟨some .teleporter, false, false, true⟩]),
          (some [0], [⟨some .teleporter, false, true, true⟩])]).get? 1).map
        (fun r => r.1.last_teleporter_applied) = some false ∧
    ((runTeleporterCycles ⟨none, false⟩
        [(some [0], [⟨some .teleporter, false, true, true⟩]),
          (some [1], [⟨some .teleporter, false, false, true⟩]),
          (some [0], [⟨some .teleporter, false, true, true⟩])]).get? 2).map
        (fun r => r.2) = some [.upload 0] := by
  refine ⟨?_, ?_, ?_⟩
  · decide
  · decide
  · decide

/-- C1, amended: the cycle hashes the downloaded archive and skips every
upload exactly when the hash equals the hash recorded *by the immediately
preceding cycle* and that cycle's snapshot was applied to all
Teleporter-mode secondaries (or the uploads were skipped); otherwise — in
particular after an intervening apply failure or an intervening different
snapshot, even if the new hash matches an older successfully applied one —
it uploads to every Teleporter-mode secondary independently. A failed
download (or archive read-back) leaves the state untouched. -/
theorem performSyncTeleporter_some (st : TeleState) (bytes : List Nat)
    (secs : List TeleSecondary) :
    performSyncTeleporter st (some bytes) secs =
      if (!(some (teleporter_backup_hash bytes) == st.last_teleporter_hash) ||
          !st.last_teleporter_applied) then
        ((⟨some (teleporter_backup_hash bytes),
            (uploadTeleporterToSecondaries secs 0).2⟩ : TeleState),
          (uploadTeleporterToSecondaries secs 0).1)
      else (⟨some (teleporter_backup_hash bytes), true⟩, []) := by
  unfold performSyncTeleporter
  cases hu : uploadTeleporterToSecondaries secs 0
  rfl

theorem c1_amended_teleporter_skip (st : TeleState) (bytes : List Nat)
    (secs : List TeleSecondary) :
    (st.last_teleporter_applied = true →
      st.last_teleporter_hash = some (teleporter_backup_hash bytes) →
      performSyncTeleporter st (some bytes) secs =
        (⟨some (teleporter_backup_hash bytes), true⟩, [])) ∧
    (st.last_teleporter_applied = false ∨
        st.last_teleporter_hash ≠ some (teleporter_backup_hash bytes) →
      performSyncTeleporter st (some bytes) secs =
        (⟨some (teleporter_backup_hash bytes), (uploadTeleporterToSecondaries secs 0).2⟩,
          (uploadTeleporterToSecondaries secs 0).1)) ∧
    performSyncTeleporter st none secs = (st, []) := by
  refine ⟨?_, ?_, rfl⟩
  · intro happ hhash
    rw [performSyncTeleporter_some, hhash, happ]
    simp
  · intro hcase
    have hcond :
        (!(some (teleporter_backup_hash bytes) == st.last_teleporter_hash) ||
          !st.last_teleporter_applied) = true := by
      rcases hcase with h | h
      · rw [h]
        simp
      · have hb : (some (teleporter_backup_hash bytes) == st.last_teleporter_hash) = false :=
          beq_eq_false_iff_ne.2 fun he => h he.symm
        rw [hb]
        simp
    rw [performSyncTeleporter_some, hcond]
    simp

/-- Witness for the amended C1: with the last cycle's snapshot applied and an
identical download, the cycle issues no upload; with the applied flag down it
uploads to the single Teleporter secondary. -/
theorem c1_amended_teleporter_skip_witness :
    performSyncTeleporter ⟨some (teleporter_backup_hash [0]), true⟩ (some [0])
        [⟨some .teleporter, false, true, true⟩] =
      (⟨some (teleporter_backup_hash [0]), true⟩, []) ∧
    performSyncTeleporter ⟨some (teleporter_backup_hash [0]), false⟩ (some [0])
        [⟨some .teleporter, false, true, true⟩] =
      (⟨some (teleporter_backup_hash [0]),
          (uploadTeleporterToSecondaries [⟨some .teleporter, false, true, true⟩] 0).2⟩,
        (uploadTeleporterToSecondaries [⟨some .teleporter, false, true, true⟩] 0).1) :=
  ⟨(c1_amended_teleporter_skip ⟨some (teleporter_backup_hash [0]), true⟩ [0]
      [⟨some .teleporter, false, true, true⟩]).1 rfl rfl,
    (c1_amended_teleporter_skip ⟨some (teleporter_backup_hash [0]), false⟩ [0]
      [⟨some .teleporter, false, true, true⟩]).2.1 (Or.inl rfl)⟩

/-! ## C2 — idempotence of the config filter -/

/-- C2, counterexample to the claim as stated: filtering is *not* idempotent
on arrays. With the opt-out path set `{"a[1]"}` on `{"a": [null, null, null]}`,
the first pass removes index 1 leaving a two-element array, and the second
pass — which addresses elements by their positions in its own input — removes
the element now sitting at index 1 again. -/
theorem c2_counterexample :
    filterJson ["a[1]".toList] .optOut
        (filterJson ["a[1]".toList] .optOut
          (.obj [("a".toList, .arr [.null, .null, .null])])) ≠
      filterJson ["a[1]".toList] .optOut
        (.obj [("a".toList, .arr [.null, .null, .null])]) := by
  decide

mutual

theorem filterValue_idem (paths : List Str) (mode : FilterMode) :
    ∀ (v : Json) (p : Str), noArrays v = true →
      filterValue paths mode (filterValue paths mode v p) p =
        filterValue paths mode v p
  | .null, _, _ => rfl
  | .bool _, _, _ => rfl
  | .num _, _, _ => rfl
  | .str _, _, _ => rfl
  | .arr _, _, h => by simp [noArrays] at h
  | .obj fields, p, h => by
    have hf : noArraysFields fields = true := by simpa [noArrays] using h
    show Json.obj (filterObject paths mode (filterObject paths mode fields p) p) =
      Json.obj (filterObject paths mode fields p)
    rw [filterObject_idem paths mode fields p hf]

theorem filterObject_idem (paths : List Str) (mode : FilterMode) :
    ∀ (fields : List (Str × Json)) (p : Str), noArraysFields fields = true →
      filterObject paths mode (filterObject paths mode fields p) p =
        filterObject paths mode fields p
  | [], _, _ => rfl
  | (k, v) :: rest, p, h => by
    have hv : noArrays v = true := by
      have hh := h
      unfold noArraysFields at hh
      rw [Bool.and_eq_true] at hh
      exact hh.1
    have hr : noArraysFields rest = true := by
      have hh := h
      unfold noArraysFields at hh
      rw [Bool.and_eq_true] at hh
      exact hh.2
    by_cases hs :
        shouldIncludePath paths mode (if p.isEmpty then k else p ++ '.' :: k) = true
    · show filterObject paths mode
          ((if shouldIncludePath paths mode (if p.isEmpty then k else p ++ '.' :: k)
              then [(k, filterValue paths mode v (if p.isEmpty then k else p ++ '.' :: k))]
            else []) ++ filterObject paths mode rest p) p = _
      rw [if_pos hs]
      show (if shouldIncludePath paths mode (if p.isEmpty then k else p ++ '.' :: k)
            then [(k, filterValue paths mode
              (filterValue paths mode v (if p.isEmpty then k else p ++ '.' :: k))
              (if p.isEmpty then k else p ++ '.' :: k))]
          else []) ++
          filterObject paths mode (filterObject paths mode rest p) p = _
      rw [if_pos hs, filterValue_idem paths mode v _ hv,
        filterObject_idem paths mode rest p hr]
      show _ = (if shouldIncludePath paths mode (if p.isEmpty then k else p ++ '.' :: k)
            then [(k, filterValue paths mode v (if p.isEmpty then k else p ++ '.' :: k))]
          else []) ++ filterObject paths mode rest p
      rw [if_pos hs]
    · show filterObject paths mode
          ((if shouldIncludePath paths mode (if p.isEmpty then k else p ++ '.' :: k)
              then [(k, filterValue paths mode v (if p.isEmpty then k else p ++ '.' :: k))]
            else []) ++ filterObject paths mode rest p) p = _
      rw [if_neg hs]
      show filterObject paths mode (filterObject paths mode rest p) p = _
      rw [filterObject_idem paths mode rest p hr]
      show _ = (if shouldIncludePath paths mode (if p.isEmpty then k else p ++ '.' :: k)
            then [(k, filterValue paths mode v (if p.isEmpty then k else p ++ '.' :: k))]
          else []) ++ filterObject paths mode rest p
      rw [if_neg hs]
      rfl

end

/-- C2, amended: on trees with no array values the filter is idempotent for
every path set and mode (the second pass re-evaluates exactly the same
decisions at the same dotted paths). Arrays break idempotence because
exclusion decisions address elements by their positions in the filter's own
input, which shift once elements are removed. -/
theorem c2_amended_filter_idempotent (paths : List Str) (mode : FilterMode)
    (t : Json) (h : noArrays t = true) :
    filterJson paths mode (filterJson paths mode t) = filterJson paths mode t := by
  by_cases hp : paths.isEmpty
  · cases mode <;> simp [filterJson, hp]
  · unfold filterJson
    rw [if_neg hp, if_neg hp]
    exact filterValue_idem paths mode t [] h

/-- Witness for the amended C2 at a concrete array-free tree. -/
theorem c2_amended_filter_idempotent_witness :
    noArrays (.obj [("a".toList, .obj [("b".toList, .null)]), ("c".toList, .num 3)]) =
        true ∧
      filterJson ["a.b".toList] .optIn
          (filterJson ["a.b".toList] .optIn
            (.obj [("a".toList, .obj [("b".toList, .null)]), ("c".toList, .num 3)])) =
        filterJson ["a.b".toList] .optIn
          (.obj [("a".toList, .obj [("b".toList, .null)]), ("c".toList, .num 3)]) :=
  ⟨by decide, c2_amended_filter_idempotent ["a.b".toList] .optIn _ (by decide)⟩

/-! ## C3 — string and path-chain lemmas -/

theorem contains_iff [BEq κ] [LawfulBEq κ] {l : List κ} {a : κ} :
    l.contains a = true ↔ a ∈ l := by
  rw [List.contains_eq_any_beq, List.any_eq_true]
  constructor
  · rintro ⟨x, hx, hax⟩
    rw [eq_of_beq hax]
    exact hx
  · intro ha
    exact ⟨a, ha, by simp⟩

theorem contains_eq_false_iff [BEq κ] [LawfulBEq κ] {l : List κ} {a : κ} :
    l.contains a = false ↔ a ∉ l := by
  rw [← Bool.not_eq_true, not_iff_not]
  exact contains_iff

theorem splitCh_ne_nil (c : Char) : ∀ s : Str, splitCh c s ≠ []
  | [] => by simp [splitCh]
  | x :: xs => by
    unfold splitCh
    cases h : splitCh c xs with
    | nil => simp
    | cons hd tl => by_cases hx : x = c <;> simp [hx]

theorem splitCh_cons (c x : Char) (xs : Str) :
    splitCh c (x :: xs) =
      match splitCh c xs with
      | [] => [[]]
      | h :: t => if x = c then [] :: h :: t else (x :: h) :: t := rfl

theorem joinCh_cons_cons (c : Char) (s t : Str) (rest : List Str) :
    joinCh c (s :: t :: rest) = s ++ c :: joinCh c (t :: rest) := rfl

theorem joinCh_splitCh (c : Char) : ∀ s : Str, joinCh c (splitCh c s) = s
  | [] => rfl
  | x :: xs => by
    rw [splitCh_cons c x xs]
    cases h : splitCh c xs with
    | nil => exact absurd h (splitCh_ne_nil c xs)
    | cons hd tl =>
      have ih : joinCh c (hd :: tl) = xs := by
        rw [← h]
        exact joinCh_splitCh c xs
      show joinCh c (if x = c then [] :: hd :: tl else (x :: hd) :: tl) = x :: xs
      by_cases hx : x = c
      · subst hx
        rw [if_pos rfl, joinCh_cons_cons, ih]
        rfl
      · rw [if_neg hx]
        cases tl with
        | nil =>
          show x :: hd = x :: xs
          rw [show hd = xs from ih]
        | cons t ts =>
          rw [joinCh_cons_cons]
          show x :: (hd ++ c :: joinCh c (t :: ts)) = x :: xs
          rw [← joinCh_cons_cons, ih]

theorem splitCh_of_not_mem (c : Char) : ∀ s : Str, c ∉ s → splitCh c s = [s]
  | [], _ => rfl
  | x :: xs, h => by
    have hx : x ≠ c := fun he => h (he ▸ List.mem_cons_self x xs)
    have hxs : c ∉ xs := fun hm => h (List.mem_cons_of_mem x hm)
    rw [splitCh_cons c x xs, splitCh_of_not_mem c xs hxs]
    show (if x = c then [] :: [xs] else [x :: xs]) = [x :: xs]
    rw [if_neg hx]

theorem splitCh_append_cons (c : Char) :
    ∀ s t : Str, c ∉ s → splitCh c (s ++ c :: t) = s :: splitCh c t
  | [], t, _ => by
    show splitCh c (c :: t) = [] :: splitCh c t
    rw [splitCh_cons c c t]
    cases h : splitCh c t with
    | nil => exact absurd h (splitCh_ne_nil c t)
    | cons hd tl =>
      show (if c = c then [] :: hd :: tl else (c :: hd) :: tl) = [] :: hd :: tl
      rw [if_pos rfl]
  | x :: s, t, h => by
    have hx : x ≠ c := fun he => h (he ▸ List.mem_cons_self x _)
    have hs : c ∉ s := fun hm => h (List.mem_cons_of_mem x hm)
    show splitCh c (x :: (s ++ c :: t)) = (x :: s) :: splitCh c t
    rw [splitCh_cons c x _, splitCh_append_cons c s t hs]
    show (if x = c then [] :: s :: splitCh c t else (x :: s) :: splitCh c t) =
      (x :: s) :: splitCh c t
    rw [if_neg hx]

theorem joinCh_append (c : Char) :
    ∀ l1 l2 : List Str, l1 ≠ [] → l2 ≠ [] →
      joinCh c (l1 ++ l2) = joinCh c l1 ++ c :: joinCh c l2
  | [], _, h1, _ => absurd rfl h1
  | [s], l2, _, h2 => by
    cases l2 with
    | nil => exact absurd rfl h2
    | cons t ts =>
      rw [List.singleton_append, joinCh_cons_cons]
      rfl
  | s :: s2 :: rest, l2, _, h2 => by
    have ih := joinCh_append c (s2 :: rest) l2 (by simp) h2
    show joinCh c (s :: s2 :: (rest ++ l2)) = _
    rw [joinCh_cons_cons]
    have ih' : joinCh c (s2 :: (rest ++ l2)) = joinCh c (s2 :: rest) ++ c :: joinCh c l2 := ih
    rw [ih', joinCh_cons_cons]
    simp

theorem splitCh_joinCh (c : Char) :
    ∀ segs : List Str, segs ≠ [] → (∀ s ∈ segs, c ∉ s) →
      splitCh c (joinCh c segs) = segs
  | [], h, _ => absurd rfl h
  | [s], _, hall => by
    show splitCh c s = [s]
    exact splitCh_of_not_mem c s (hall s (List.mem_singleton.2 rfl))
  | s :: s2 :: rest, _, hall => by
    rw [joinCh_cons_cons,
      splitCh_append_cons c s _ (hall s (List.mem_cons_self _ _)),
      splitCh_joinCh c (s2 :: rest) (by simp)
        (fun f hf => hall f (List.mem_cons_of_mem _ hf))]

theorem cleanKey_spec {k : Str} (h : cleanKey k = true) :
    k ≠ [] ∧ ('.' ∉ k) ∧ ('[' ∉ k) := by
  unfold cleanKey at h
  rw [Bool.and_eq_true, Bool.and_eq_true] at h
  rcases h with ⟨⟨h1, h2⟩, h3⟩
  refine ⟨?_, ?_, ?_⟩
  · intro he
    rw [he] at h1
    simp at h1
  · rw [Bool.not_eq_true'] at h2
    exact contains_eq_false_iff.1 h2
  · rw [Bool.not_eq_true'] at h3
    exact contains_eq_false_iff.1 h3

theorem joinCh_ne_nil (c : Char) :
    ∀ segs : List Str, segs ≠ [] → (∀ s ∈ segs, s ≠ []) → joinCh c segs ≠ []
  | [], h, _ => absurd rfl h
  | [s], _, hall => hall s (List.mem_singleton.2 rfl)
  | s :: s2 :: rest, _, hall => by
    rw [joinCh_cons_cons]
    cases hs : s with
    | nil => exact absurd hs (hall s (List.mem_cons_self _ _))
    | cons a t => simp

theorem not_mem_joinCh (c c' : Char) (hne : c' ≠ c) :
    ∀ segs : List Str, (∀ s ∈ segs, c' ∉ s) → c' ∉ joinCh c segs
  | [], _ => by simp [joinCh]
  | [s], hall => hall s (List.mem_singleton.2 rfl)
  | s :: s2 :: rest, hall => by
    rw [joinCh_cons_cons]
    intro hm
    rcases List.mem_append.1 hm with hm | hm
    · exact hall s (List.mem_cons_self _ _) hm
    · rcases List.mem_cons.1 hm with hm | hm
      · exact hne hm
      · exact not_mem_joinCh c c' hne (s2 :: rest)
          (fun f hf => hall f (List.mem_cons_of_mem _ hf)) hm

theorem childPath_eq {segs : List Str} (k : Str)
    (hclean : ∀ s ∈ segs, cleanKey s = true) :
    childPath (joinCh '.' segs) k = joinCh '.' (segs ++ [k]) := by
  cases segs with
  | nil => rfl
  | cons s rest =>
    have hne : joinCh '.' (s :: rest) ≠ [] :=
      joinCh_ne_nil '.' (s :: rest) (by simp)
        (fun f hf => (cleanKey_spec (hclean f hf)).1)
    unfold childPath
    rw [if_neg (by simpa [List.isEmpty_iff] using hne)]
    rw [joinCh_append '.' (s :: rest) [k] (by simp) (by simp)]
    rfl

theorem take_append_singleton_of_le {segs : List Str} (k : Str) {j : Nat}
    (h : j ≤ segs.length) : (segs ++ [k]).take j = segs.take j := by
  rw [List.take_append_eq_append_take, Nat.sub_eq_zero_of_le h]
  simp

/-! ## C3 — characterizing the filter decisions on clean dotted paths -/

theorem ancestorLoop_spec (paths : List Str) :
    ∀ (fuel : Nat) (parts : List Str), parts.length ≤ fuel →
      (ancestorLoop paths fuel parts = true ↔
        ∃ k, 1 ≤ k ∧ k < parts.length ∧
          paths.contains (joinCh '.' (parts.take k)) = true)
  | 0, parts, hle => by
    have h0 : parts.length = 0 := Nat.le_zero.1 hle
    unfold ancestorLoop
    simp only [Bool.false_eq_true, false_iff]
    rintro ⟨k, hk1, hk2, -⟩
    omega
  | fuel + 1, parts, hle => by
    unfold ancestorLoop
    by_cases hl : parts.length > 1
    · rw [if_pos hl]
      have hdl : parts.dropLast.length = parts.length - 1 := List.length_dropLast _
      have hdle : parts.dropLast.length ≤ fuel := by omega
      rw [Bool.or_eq_true, ancestorLoop_spec paths fuel parts.dropLast hdle]
      have htake : ∀ k, k ≤ parts.length - 1 →
          parts.dropLast.take k = parts.take k := by
        intro k hk
        rw [List.dropLast_eq_take, List.take_take, Nat.min_eq_left hk]
      constructor
      · rintro (hc | ⟨k, hk1, hk2, hk3⟩)
        · refine ⟨parts.length - 1, by omega, by omega, ?_⟩
          rw [← List.dropLast_eq_take]
          exact hc
        · refine ⟨k, hk1, by omega, ?_⟩
          rw [← htake k (by omega)]
          exact hk3
      · rintro ⟨k, hk1, hk2, hk3⟩
        by_cases hk : k = parts.length - 1
        · left
          rw [List.dropLast_eq_take, ← hk]
          exact hk3
        · right
          refine ⟨k, hk1, by omega, ?_⟩
          rw [htake k (by omega)]
          exact hk3
    · rw [if_neg hl]
      simp only [Bool.false_eq_true, false_iff]
      rintro ⟨k, hk1, hk2, -⟩
      omega

theorem anyAncestorIn_iff (paths parts : List Str) :
    anyAncestorIn paths parts = true ↔
      ∃ k, 1 ≤ k ∧ k < parts.length ∧
        paths.contains (joinCh '.' (parts.take k)) = true :=
  ancestorLoop_spec paths parts.length parts (le_refl _)

theorem shouldOut_iff (paths segs : List Str) (hne : segs ≠ [])
    (hclean : ∀ s ∈ segs, cleanKey s = true) :
    (shouldIncludePath paths .optOut (joinCh '.' segs) = true ↔
      ¬CoveredSegs paths segs) := by
  have hsplit : splitCh '.' (joinCh '.' segs) = segs :=
    splitCh_joinCh '.' segs hne (fun f hf => (cleanKey_spec (hclean f hf)).2.1)
  have hfull : joinCh '.' (segs.take segs.length) = joinCh '.' segs := by
    rw [List.take_length]
  have hlen1 : 1 ≤ segs.length := by
    have h0 : segs.length ≠ 0 := fun h0 => hne (List.length_eq_zero.1 h0)
    omega
  show (if paths.contains (joinCh '.' segs) then false
      else !anyAncestorIn paths (splitCh '.' (joinCh '.' segs))) = true ↔ _
  rw [hsplit]
  by_cases hc : paths.contains (joinCh '.' segs) = true
  · rw [if_pos hc]
    simp only [Bool.false_eq_true, false_iff, Classical.not_not]
    exact ⟨segs.length, hlen1, le_refl _, by rw [hfull]; exact hc⟩
  · rw [if_neg hc]
    simp only [Bool.not_eq_true']
    constructor
    · intro hfalse hcov
      rcases hcov with ⟨k, hk1, hk2, hk3⟩
      rcases Nat.lt_or_ge k segs.length with hk | hk
      · have := (anyAncestorIn_iff paths segs).2 ⟨k, hk1, hk, hk3⟩
        rw [this] at hfalse
        exact Bool.noConfusion hfalse
      · have hkeq : k = segs.length := by omega
        subst hkeq
        rw [hfull] at hk3
        exact hc hk3
    · intro hncov
      cases hval : anyAncestorIn paths segs
      · rfl
      · exfalso
        rcases (anyAncestorIn_iff paths segs).1 hval with ⟨k, hk1, hk2, hk3⟩
        exact hncov ⟨k, hk1, by omega, hk3⟩

theorem shouldIn_iff (paths segs : List Str) (hne : segs ≠ [])
    (hclean : ∀ s ∈ segs, cleanKey s = true) :
    (shouldIncludePath paths .optIn (joinCh '.' segs) = true ↔
      CoveredSegs paths segs ∨ BExtStr paths (joinCh '.' segs)) := by
  have hsplit : splitCh '.' (joinCh '.' segs) = segs :=
    splitCh_joinCh '.' segs hne (fun f hf => (cleanKey_spec (hclean f hf)).2.1)
  have hnobr : '[' ∉ joinCh '.' segs :=
    not_mem_joinCh '.' '[' (by decide) segs
      (fun f hf => (cleanKey_spec (hclean f hf)).2.2)
  have hbase : splitCh '[' (joinCh '.' segs) = [joinCh '.' segs] :=
    splitCh_of_not_mem '[' _ hnobr
  have hfull : joinCh '.' (segs.take segs.length) = joinCh '.' segs := by
    rw [List.take_length]
  have hlen1 : 1 ≤ segs.length := by
    have h0 : segs.length ≠ 0 := fun h0 => hne (List.length_eq_zero.1 h0)
    omega
  unfold shouldIncludePath
  simp only [hbase, List.headD_cons, hsplit]
  by_cases hc : paths.contains (joinCh '.' segs) = true
  · rw [if_pos hc]
    simp only [true_iff]
    exact Or.inl ⟨segs.length, hlen1, le_refl _, by rw [hfull]; exact hc⟩
  · rw [if_neg hc, if_neg hc]
    by_cases ha : anyAncestorIn paths segs = true
    · rw [if_pos ha]
      simp only [true_iff]
      rcases (anyAncestorIn_iff paths segs).1 ha with ⟨k, hk1, hk2, hk3⟩
      exact Or.inl ⟨k, hk1, by omega, hk3⟩
    · rw [if_neg ha]
      rw [List.any_eq_true]
      constructor
      · rintro ⟨ip, hip, hf⟩
        rw [Bool.and_eq_true, Bool.or_eq_true] at hf
        rcases hf with ⟨hpre, hrest⟩
        have hpre' : joinCh '.' segs <+: ip := List.isPrefixOf_iff_prefix.1 hpre
        rcases hrest with hlen | hdot
        · have heq : joinCh '.' segs = ip :=
            List.IsPrefix.eq_of_length hpre' (beq_iff_eq.1 hlen).symm
          rw [← heq] at hip
          exact absurd (contains_iff.2 hip) hc
        · right
          refine ⟨ip, hip, ?_⟩
          unfold strictlyBelow
          rw [Bool.and_eq_true]
          exact ⟨hpre, hdot⟩
      · rintro (hcov | ⟨ip, hip, hsb⟩)
        · exfalso
          rcases hcov with ⟨k, hk1, hk2, hk3⟩
          rcases Nat.lt_or_ge k segs.length with hk | hk
          · exact absurd ((anyAncestorIn_iff paths segs).2 ⟨k, hk1, hk, hk3⟩) ha
          · have hkeq : k = segs.length := by omega
            subst hkeq
            rw [hfull] at hk3
            exact hc hk3
        · refine ⟨ip, hip, ?_⟩
          unfold strictlyBelow at hsb
          rw [Bool.and_eq_true] at hsb
          rw [Bool.and_eq_true, Bool.or_eq_true]
          exact ⟨hsb.1, Or.inr hsb.2⟩

/-! ## C3 — subtree identity lemmas -/

theorem covered_extend {paths segs : List Str} (k : Str)
    (h : CoveredSegs paths segs) : CoveredSegs paths (segs ++ [k]) := by
  rcases h with ⟨j, hj1, hj2, hj3⟩
  refine ⟨j, hj1, by simpa using Nat.le_succ_of_le hj2, ?_⟩
  rw [take_append_singleton_of_le k hj2]
  exact hj3

theorem joinCh_append_singleton {segs : List Str} (k : Str) (hne : segs ≠ []) :
    joinCh '.' (segs ++ [k]) = joinCh '.' segs ++ '.' :: k := by
  rw [joinCh_append '.' segs [k] hne (by simp)]
  rfl

theorem strictlyBelow_append (p : Str) (k : Str) :
    strictlyBelow p (p ++ '.' :: k) = true := by
  unfold strictlyBelow
  rw [Bool.and_eq_true]
  constructor
  · exact List.isPrefixOf_iff_prefix.2 (List.prefix_append p ('.' :: k))
  · rw [List.get?_append_right (le_refl p.length)]
    simp

theorem strictlyBelow_of_extend {p : Str} {k : Str} {ip : Str}
    (h : strictlyBelow (p ++ '.' :: k) ip = true) : strictlyBelow p ip = true := by
  unfold strictlyBelow at h ⊢
  rw [Bool.and_eq_true] at h
  rcases h with ⟨hpre, -⟩
  have hpre' : p ++ '.' :: k <+: ip := List.isPrefixOf_iff_prefix.1 hpre
  rcases hpre' with ⟨t, ht⟩
  rw [Bool.and_eq_true]
  constructor
  · refine List.isPrefixOf_iff_prefix.2 ?_
    rw [← ht]
    exact (List.prefix_append p ('.' :: k)).trans (List.prefix_append _ t)
  · rw [← ht, List.append_assoc, List.get?_append_right (le_refl p.length)]
    simp

theorem free_extend {paths segs : List Str} {k : Str} (hne : segs ≠ [])
    (hcov : ¬CoveredSegs paths segs) (hbe : ¬BExtStr paths (joinCh '.' segs)) :
    ¬CoveredSegs paths (segs ++ [k]) ∧ ¬BExtStr paths (joinCh '.' (segs ++ [k])) := by
  constructor
  · rintro ⟨j, hj1, hj2, hj3⟩
    rw [List.length_append, List.length_singleton] at hj2
    rcases Nat.lt_or_ge j (segs.length + 1) with hj | hj
    · rw [take_append_singleton_of_le k (by omega)] at hj3
      exact hcov ⟨j, hj1, by omega, hj3⟩
    · have hjeq : j = segs.length + 1 := by omega
      subst hjeq
      rw [show (segs ++ [k]).take (segs.length + 1) = segs ++ [k] by
        apply List.take_of_length_le
        simp] at hj3
      refine hbe ⟨joinCh '.' (segs ++ [k]), contains_iff.1 hj3, ?_⟩
      rw [joinCh_append_singleton k hne]
      exact strictlyBelow_append _ k
  · rintro ⟨ip, hip, hsb⟩
    rw [joinCh_append_singleton k hne] at hsb
    exact hbe ⟨ip, hip, strictlyBelow_of_extend hsb⟩

mutual

theorem filterIn_covered (paths : List Str) :
    ∀ (v : Json) (segs : List Str), CoveredSegs paths segs → segs ≠ [] →
      (∀ s ∈ segs, cleanKey s = true) → keysCleanJson v = true → noArrays v = true →
      filterValue paths .optIn v (joinCh '.' segs) = v
  | .null, _, _, _, _, _, _ => rfl
  | .bool _, _, _, _, _, _, _ => rfl
  | .num _, _, _, _, _, _, _ => rfl
  | .str _, _, _, _, _, _, _ => rfl
  | .arr _, _, _, _, _, _, hna => by simp [noArrays] at hna
  | .obj fields, segs, hcov, hne, hclean, hkc, hna => by
    show Json.obj (filterObject paths .optIn fields (joinCh '.' segs)) = Json.obj fields
    rw [filterInFields_covered paths fields segs hcov hne hclean
      (by simpa [keysCleanJson] using hkc) (by simpa [noArrays] using hna)]

theorem filterInFields_covered (paths : List Str) :
    ∀ (fields : List (Str × Json)) (segs : List Str), CoveredSegs paths segs →
      segs ≠ [] → (∀ s ∈ segs, cleanKey s = true) →
      keysCleanFields fields = true → noArraysFields fields = true →
      filterObject paths .optIn fields (joinCh '.' segs) = fields
  | [], _, _, _, _, _, _ => rfl
  | (k, v) :: rest, segs, hcov, hne, hclean, hkc, hna => by
    have hkc' := hkc
    unfold keysCleanFields at hkc'
    rw [Bool.and_eq_true, Bool.and_eq_true] at hkc'
    rcases hkc' with ⟨⟨hk, hv⟩, hrest⟩
    have hna' := hna
    unfold noArraysFields at hna'
    rw [Bool.and_eq_true] at hna'
    rcases hna' with ⟨hnav, hnar⟩
    have hchain : ∀ s ∈ segs ++ [k], cleanKey s = true := by
      intro s hs
      rcases List.mem_append.1 hs with hs | hs
      · exact hclean s hs
      · rw [List.mem_singleton.1 hs]
        exact hk
    have hcur : childPath (joinCh '.' segs) k = joinCh '.' (segs ++ [k]) :=
      childPath_eq k hclean
    have hcov' : CoveredSegs paths (segs ++ [k]) := covered_extend k hcov
    have hdec : shouldIncludePath paths .optIn (joinCh '.' (segs ++ [k])) = true :=
      (shouldIn_iff paths (segs ++ [k]) (by simp) hchain).2 (Or.inl hcov')
    show (if shouldIncludePath paths .optIn (childPath (joinCh '.' segs) k) then
        [(k, filterValue paths .optIn v (childPath (joinCh '.' segs) k))]
      else []) ++ filterObject paths .optIn rest (joinCh '.' segs) = (k, v) :: rest
    rw [hcur, if_pos hdec,
      filterIn_covered paths v (segs ++ [k]) hcov' (by simp) hchain hv hnav,
      filterInFields_covered paths rest segs hcov hne hclean hrest hnar]
    rfl

end

mutual

theorem filterOut_free (paths : List Str) :
    ∀ (v : Json) (segs : List Str), segs ≠ [] →
      (∀ s ∈ segs, cleanKey s = true) → ¬CoveredSegs paths segs →
      ¬BExtStr paths (joinCh '.' segs) → keysCleanJson v = true →
      noArrays v = true →
      filterValue paths .optOut v (joinCh '.' segs) = v
  | .null, _, _, _, _, _, _, _ => rfl
  | .bool _, _, _, _, _, _, _, _ => rfl
  | .num _, _, _, _, _, _, _, _ => rfl
  | .str _, _, _, _, _, _, _, _ => rfl
  | .arr _, _, _, _, _, _, _, hna => by simp [noArrays] at hna
  | .obj fields, segs, hne, hclean, hcov, hbe, hkc, hna => by
    show Json.obj (filterObject paths .optOut fields (joinCh '.' segs)) = Json.obj fields
    rw [filterOutFields_free paths fields segs hne hclean hcov hbe
      (by simpa [keysCleanJson] using hkc) (by simpa [noArrays] using hna)]

theorem filterOutFields_free (paths : List Str) :
    ∀ (fields : List (Str × Json)) (segs : List Str), segs ≠ [] →
      (∀ s ∈ segs, cleanKey s = true) → ¬CoveredSegs paths segs →
      ¬BExtStr paths (joinCh '.' segs) → keysCleanFields fields = true →
      noArraysFields fields = true →
      filterObject paths .optOut fields (joinCh '.' segs) = fields
  | [], _, _, _, _, _, _, _ => rfl
  | (k, v) :: rest, segs, hne, hclean, hcov, hbe, hkc, hna => by
    have hkc' := hkc
    unfold keysCleanFields at hkc'
    rw [Bool.and_eq_true, Bool.and_eq_true] at hkc'
    rcases hkc' with ⟨⟨hk, hv⟩, hrest⟩
    have hna' := hna
    unfold noArraysFields at hna'
    rw [Bool.and_eq_true] at hna'
    rcases hna' with ⟨hnav, hnar⟩
    have hchain : ∀ s ∈ segs ++ [k], cleanKey s = true := by
      intro s hs
      rcases List.mem_append.1 hs with hs | hs
      · exact hclean s hs
      · rw [List.mem_singleton.1 hs]
        exact hk
    have hcur : childPath (joinCh '.' segs) k = joinCh '.' (segs ++ [k]) :=
      childPath_eq k hclean
    rcases free_extend hne hcov hbe (k := k) with ⟨hcov', hbe'⟩
    have hdec : shouldIncludePath paths .optOut (joinCh '.' (segs ++ [k])) = true :=
      (shouldOut_iff paths (segs ++ [k]) (by simp) hchain).2 hcov'
    show (if shouldIncludePath paths .optOut (childPath (joinCh '.' segs) k) then
        [(k, filterValue paths .optOut v (childPath (joinCh '.' segs) k))]
      else []) ++ filterObject paths .optOut rest (joinCh '.' segs) = (k, v) :: rest
    rw [hcur, if_pos hdec,
      filterOut_free paths v (segs ++ [k]) (by simp) hchain hcov' hbe' hv hnav,
      filterOutFields_free paths rest segs hne hclean hcov hbe hrest hnar]
    rfl

end


/-! ## C3 — key order, chain and merge machinery -/

theorem lexLt_irrefl (a : Str) : lexLt a a = false := by
  unfold lexLt
  rw [cmpStr_refl]

theorem keysStrictSorted_pairwise :
    ∀ {l : List Str}, keysStrictSorted l = true →
      l.Pairwise fun a b => lexLt a b = true
  | [], _ => List.Pairwise.nil
  | [a], _ => by simp
  | a :: b :: rest, h => by
    have h' := h
    unfold keysStrictSorted at h'
    rw [Bool.and_eq_true] at h'
    rcases h' with ⟨hab, hrest⟩
    have ih := keysStrictSorted_pairwise hrest
    refine List.Pairwise.cons ?_ ih
    intro x hx
    rcases List.mem_cons.1 hx with hx | hx
    · rw [hx]
      exact hab
    · exact lexLt_trans hab ((List.pairwise_cons.1 ih).1 x hx)

theorem filterObject_keys_sub (paths : List Str) (m : FilterMode) :
    ∀ (fields : List (Str × Json)) (p : Str) (e : Str × Json),
      e ∈ filterObject paths m fields p → e.1 ∈ fields.map Prod.fst
  | [], _, _, h => by simp [filterObject] at h
  | (k, v) :: rest, p, e, h => by
    have h' : e ∈ (if shouldIncludePath paths m (childPath p k) then
        [(k, filterValue paths m v (childPath p k))] else []) ++
        filterObject paths m rest p := h
    rcases List.mem_append.1 h' with hm | hm
    · rcases Bool.eq_false_or_eq_true (shouldIncludePath paths m (childPath p k))
        with hd | hd
      · rw [if_pos hd] at hm
        have he := List.mem_singleton.1 hm
        subst he
        show (k : Str) ∈ k :: List.map Prod.fst rest
        exact List.mem_cons_self _ _
      · have hneg : ¬shouldIncludePath paths m (childPath p k) = true := by
          simp [hd]
        rw [if_neg hneg] at hm
        simp at hm
    · exact List.mem_cons_of_mem _ (filterObject_keys_sub paths m rest p e hm)

theorem leafChainsFields_head :
    ∀ (fields : List (Str × Json)) (ch : List Str),
      ch ∈ leafChainsFields fields →
      ∃ e ∈ fields, ∃ ext, ch = e.1 :: ext
  | [], _, h => by simp [leafChainsFields] at h
  | (k, v) :: rest, ch, h => by
    have h' : ch ∈ (leafChains v).map (fun ext => k :: ext) ++
        leafChainsFields rest := h
    rcases List.mem_append.1 h' with hm | hm
    · rcases List.mem_map.1 hm with ⟨ext, -, hext⟩
      exact ⟨(k, v), List.mem_cons_self _ _, ext, hext.symm⟩
    · rcases leafChainsFields_head rest ch hm with ⟨e, he, ext, hext⟩
      exact ⟨e, List.mem_cons_of_mem _ he, ext, hext⟩

mutual

theorem leafChains_filter_sub (paths : List Str) (m : FilterMode) :
    ∀ (v : Json) (p : Str) (ch : List Str),
      ch ∈ leafChains (filterValue paths m v p) → ch ∈ leafChains v
  | .null, _, _, h => h
  | .bool _, _, _, h => h
  | .num _, _, _, h => h
  | .str _, _, _, h => h
  | .arr _, _, _, h => by
    simp [filterValue, leafChains] at h
  | .obj fields, p, ch, h => by
    have h' : ch ∈ leafChainsFields (filterObject paths m fields p) := h
    exact leafChainsFields_filter_sub paths m fields p ch h'

theorem leafChainsFields_filter_sub (paths : List Str) (m : FilterMode) :
    ∀ (fields : List (Str × Json)) (p : Str) (ch : List Str),
      ch ∈ leafChainsFields (filterObject paths m fields p) →
      ch ∈ leafChainsFields fields
  | [], _, _, h => h
  | (k, v) :: rest, p, ch, h => by
    have h' : ch ∈ leafChainsFields ((if shouldIncludePath paths m
        (childPath p k) then [(k, filterValue paths m v (childPath p k))]
      else []) ++ filterObject paths m rest p) := h
    show ch ∈ (leafChains v).map (fun ext => k :: ext) ++ leafChainsFields rest
    rcases Bool.eq_false_or_eq_true (shouldIncludePath paths m (childPath p k))
      with hd | hd
    case inr =>
      have hneg : ¬shouldIncludePath paths m (childPath p k) = true := by
        simp [hd]
      rw [if_neg hneg, List.nil_append] at h'
      exact List.mem_append_right _
        (leafChainsFields_filter_sub paths m rest p ch h')
    case inl =>
      rw [if_pos hd] at h'
      have h2 : ch ∈ (leafChains (filterValue paths m v (childPath p k))).map
          (fun ext => k :: ext) ++
          leafChainsFields (filterObject paths m rest p) := h'
      rcases List.mem_append.1 h2 with hm | hm
      · rcases List.mem_map.1 hm with ⟨ext, hext, hch⟩
        exact List.mem_append_left _ (List.mem_map.2
          ⟨ext, leafChains_filter_sub paths m v (childPath p k) ext hext, hch⟩)
      · exact List.mem_append_right _
          (leafChainsFields_filter_sub paths m rest p ch hm)

end

mutual

theorem leafChains_clean :
    ∀ (v : Json), keysCleanJson v = true →
      ∀ ch ∈ leafChains v, ∀ s ∈ ch, cleanKey s = true
  | .null, _, ch, hch => by simp [leafChains] at hch; simp [hch]
  | .bool _, _, ch, hch => by simp [leafChains] at hch; simp [hch]
  | .num _, _, ch, hch => by simp [leafChains] at hch; simp [hch]
  | .str _, _, ch, hch => by simp [leafChains] at hch; simp [hch]
  | .arr _, _, ch, hch => by simp [leafChains] at hch
  | .obj fields, hkc, ch, hch => by
    have hch' : ch ∈ leafChainsFields fields := hch
    exact leafChainsFields_clean fields (by simpa [keysCleanJson] using hkc)
      ch hch'

theorem leafChainsFields_clean :
    ∀ (fields : List (Str × Json)), keysCleanFields fields = true →
      ∀ ch ∈ leafChainsFields fields, ∀ s ∈ ch, cleanKey s = true
  | [], _, ch, hch => by simp [leafChainsFields] at hch
  | (k, v) :: rest, hkc, ch, hch => by
    have hkc' := hkc
    unfold keysCleanFields at hkc'
    rw [Bool.and_eq_true, Bool.and_eq_true] at hkc'
    rcases hkc' with ⟨⟨hk, hv⟩, hrest⟩
    have hch' : ch ∈ (leafChains v).map (fun ext => k :: ext) ++
        leafChainsFields rest := hch
    rcases List.mem_append.1 hch' with hm | hm
    · rcases List.mem_map.1 hm with ⟨ext, hext, hcheq⟩
      intro s hs
      rw [← hcheq] at hs
      rcases List.mem_cons.1 hs with hs | hs
      · rw [hs]
        exact hk
      · exact leafChains_clean v hv ext hext s hs
    · exact leafChainsFields_clean rest hrest ch hm

end

mutual

theorem leafPaths_eq_chains :
    ∀ (v : Json) (segs : List Str), noArrays v = true →
      keysCleanJson v = true → (∀ s ∈ segs, cleanKey s = true) →
      leafPaths v (joinCh '.' segs) =
        (leafChains v).map fun ch => joinCh '.' (segs ++ ch)
  | .null, segs, _, _, _ => by simp [leafPaths, leafChains]
  | .bool _, segs, _, _, _ => by simp [leafPaths, leafChains]
  | .num _, segs, _, _, _ => by simp [leafPaths, leafChains]
  | .str _, segs, _, _, _ => by simp [leafPaths, leafChains]
  | .arr _, segs, hna, _, _ => by simp [noArrays] at hna
  | .obj fields, segs, hna, hkc, hclean => by
    show leafPathsFields fields (joinCh '.' segs) = _
    rw [leafPathsFields_eq_chains fields segs (by simpa [noArraysFields] using
      (by simpa [noArrays] using hna : noArraysFields fields = true))
      (by simpa [keysCleanJson] using hkc) hclean]
    rfl

theorem leafPathsFields_eq_chains :
    ∀ (fields : List (Str × Json)) (segs : List Str),
      noArraysFields fields = true → keysCleanFields fields = true →
      (∀ s ∈ segs, cleanKey s = true) →
      leafPathsFields fields (joinCh '.' segs) =
        (leafChainsFields fields).map fun ch => joinCh '.' (segs ++ ch)
  | [], _, _, _, _ => by simp [leafPathsFields, leafChainsFields]
  | (k, v) :: rest, segs, hna, hkc, hclean => by
    have hkc' := hkc
    unfold keysCleanFields at hkc'
    rw [Bool.and_eq_true, Bool.and_eq_true] at hkc'
    rcases hkc' with ⟨⟨hk, hv⟩, hrest⟩
    have hna' := hna
    unfold noArraysFields at hna'
    rw [Bool.and_eq_true] at hna'
    rcases hna' with ⟨hnav, hnar⟩
    have hchain : ∀ s ∈ segs ++ [k], cleanKey s = true := by
      intro s hs
      rcases List.mem_append.1 hs with hs | hs
      · exact hclean s hs
      · rw [List.mem_singleton.1 hs]
        exact hk
    show leafPaths v (childPath (joinCh '.' segs) k) ++
        leafPathsFields rest (joinCh '.' segs) = _
    rw [childPath_eq k hclean,
      leafPaths_eq_chains v (segs ++ [k]) hnav hv hchain,
      leafPathsFields_eq_chains rest segs hnar hrest hclean]
    show _ = ((leafChains v).map (fun ext => k :: ext) ++
        leafChainsFields rest).map fun ch => joinCh '.' (segs ++ ch)
    rw [List.map_append, List.map_map]
    congr 1
    apply List.map_congr_left
    intro ch _
    show joinCh '.' (segs ++ [k] ++ ch) = joinCh '.' (segs ++ k :: ch)
    rw [List.append_assoc]
    rfl

end

theorem mergeFields_cons_right (f1 : List (Str × Json)) (k : Str) (v : Json)
    (f2 : List (Str × Json)) (h : ∀ e ∈ f1, lexLt k e.1 = true) :
    mergeFields f1 ((k, v) :: f2) = (k, v) :: mergeFields f1 f2 := by
  cases f1 with
  | nil => rfl
  | cons hd r1 =>
    obtain ⟨k1, v1⟩ := hd
    have hk : lexLt k k1 = true := h (k1, v1) (List.mem_cons_self _ _)
    have hpos : (fun g : Str × Json => lexLt g.1 k1) (k, v) = true := by
      simpa using hk
    have htw : List.takeWhile (fun g : Str × Json => lexLt g.1 k1)
        ((k, v) :: f2) = (k, v) :: List.takeWhile (fun g : Str × Json =>
          lexLt g.1 k1) f2 := List.takeWhile_cons_of_pos hpos
    have hdw : List.dropWhile (fun g : Str × Json => lexLt g.1 k1)
        ((k, v) :: f2) = List.dropWhile (fun g : Str × Json => lexLt g.1 k1)
          f2 := List.dropWhile_cons_of_pos hpos
    cases hrest : List.dropWhile (fun g : Str × Json => lexLt g.1 k1) f2 with
    | nil =>
      rw [mergeFields, htw, hdw]
      conv_rhs => rw [mergeFields]
      rw [hrest]
      simp
    | cons e2 r2 =>
      obtain ⟨k2, v2⟩ := e2
      rw [mergeFields, htw, hdw]
      conv_rhs => rw [mergeFields]
      rw [hrest]
      by_cases hkk : k1 = k2 <;> simp [hkk]

theorem mergeFields_cons_left (k : Str) (v : Json)
    (r1 f2 : List (Str × Json)) (h : ∀ e ∈ f2, lexLt k e.1 = true) :
    mergeFields ((k, v) :: r1) f2 = (k, v) :: mergeFields r1 f2 := by
  cases f2 with
  | nil =>
    rw [mergeFields]
    simp
  | cons e2 r2 =>
    obtain ⟨k2, v2⟩ := e2
    have hk : lexLt k k2 = true := h (k2, v2) (List.mem_cons_self _ _)
    have hneg : ¬((fun g : Str × Json => lexLt g.1 k) (k2, v2) = true) := by
      simpa using lexLt_asymm hk
    have htw : List.takeWhile (fun g : Str × Json => lexLt g.1 k)
        ((k2, v2) :: r2) = [] := List.takeWhile_cons_of_neg hneg
    have hdw : List.dropWhile (fun g : Str × Json => lexLt g.1 k)
        ((k2, v2) :: r2) = (k2, v2) :: r2 := List.dropWhile_cons_of_neg hneg
    rw [mergeFields, htw, hdw]
    simp [lexLt_ne hk]

theorem mergeFields_cons_both (k : Str) (vI vO : Json)
    (r1 r2 : List (Str × Json)) :
    mergeFields ((k, vI) :: r1) ((k, vO) :: r2) =
      (k, mergeJson vI vO) :: mergeFields r1 r2 := by
  have hneg : ¬((fun g : Str × Json => lexLt g.1 k) (k, vO) = true) := by
    simp [lexLt_irrefl k]
  have htw : List.takeWhile (fun g : Str × Json => lexLt g.1 k)
      ((k, vO) :: r2) = [] := List.takeWhile_cons_of_neg hneg
  have hdw : List.dropWhile (fun g : Str × Json => lexLt g.1 k)
      ((k, vO) :: r2) = (k, vO) :: r2 := List.dropWhile_cons_of_neg hneg
  rw [mergeFields, htw, hdw]
  simp


/-! ## C3 — the merge of the two filtered trees rebuilds the original -/

mutual

theorem mergeFilter (paths : List Str) :
    ∀ (v : Json) (segs : List Str), (∀ s ∈ segs, cleanKey s = true) →
      keysCleanJson v = true → keysSortedJson v = true → noArrays v = true →
      mergeJson (filterValue paths .optIn v (joinCh '.' segs))
        (filterValue paths .optOut v (joinCh '.' segs)) = v
  | .null, _, _, _, _, _ => rfl
  | .bool _, _, _, _, _, _ => rfl
  | .num _, _, _, _, _, _ => rfl
  | .str _, _, _, _, _, _ => rfl
  | .arr _, _, _, _, _, hna => by simp [noArrays] at hna
  | .obj fields, segs, hclean, hkc, hks, hna => by
    show Json.obj (mergeFields
      (filterObject paths .optIn fields (joinCh '.' segs))
      (filterObject paths .optOut fields (joinCh '.' segs))) = Json.obj fields
    have hks' : keysStrictSorted (fields.map Prod.fst) = true ∧
        keysSortedFields fields = true := by
      have h := hks
      unfold keysSortedJson at h
      rw [Bool.and_eq_true] at h
      exact h
    rw [mergeFilterFields paths fields segs hclean
      (by simpa [keysCleanJson] using hkc) hks'.1 hks'.2
      (by simpa [noArrays] using hna)]

theorem mergeFilterFields (paths : List Str) :
    ∀ (fields : List (Str × Json)) (segs : List Str),
      (∀ s ∈ segs, cleanKey s = true) → keysCleanFields fields = true →
      keysStrictSorted (fields.map Prod.fst) = true →
      keysSortedFields fields = true → noArraysFields fields = true →
      mergeFields (filterObject paths .optIn fields (joinCh '.' segs))
        (filterObject paths .optOut fields (joinCh '.' segs)) = fields
  | [], _, _, _, _, _, _ => rfl
  | (k, v) :: rest, segs, hclean, hkc, hss, hsf, hna => by
    have hkc' := hkc
    unfold keysCleanFields at hkc'
    rw [Bool.and_eq_true, Bool.and_eq_true] at hkc'
    rcases hkc' with ⟨⟨hk, hv⟩, hrest⟩
    have hna' := hna
    unfold noArraysFields at hna'
    rw [Bool.and_eq_true] at hna'
    rcases hna' with ⟨hnav, hnar⟩
    have hsf' := hsf
    unfold keysSortedFields at hsf'
    rw [Bool.and_eq_true] at hsf'
    rcases hsf' with ⟨hsv, hsrest⟩
    have hss2 : keysStrictSorted (k :: rest.map Prod.fst) = true := hss
    have hpw := keysStrictSorted_pairwise hss2
    have hklt : ∀ x ∈ rest.map Prod.fst, lexLt k x = true :=
      (List.pairwise_cons.1 hpw).1
    have hss' : keysStrictSorted (rest.map Prod.fst) = true := by
      cases hrm : rest.map Prod.fst with
      | nil => rfl
      | cons b t =>
        rw [hrm] at hss2
        unfold keysStrictSorted at hss2
        rw [Bool.and_eq_true] at hss2
        exact hss2.2
    have hchain : ∀ s ∈ segs ++ [k], cleanKey s = true := by
      intro s hs
      rcases List.mem_append.1 hs with hs | hs
      · exact hclean s hs
      · rw [List.mem_singleton.1 hs]
        exact hk
    have hcur : childPath (joinCh '.' segs) k = joinCh '.' (segs ++ [k]) :=
      childPath_eq k hclean
    have hltIn : ∀ e ∈ filterObject paths .optIn rest (joinCh '.' segs),
        lexLt k e.1 = true := fun e he =>
      hklt e.1 (filterObject_keys_sub paths .optIn rest _ e he)
    have hltOut : ∀ e ∈ filterObject paths .optOut rest (joinCh '.' segs),
        lexLt k e.1 = true := fun e he =>
      hklt e.1 (filterObject_keys_sub paths .optOut rest _ e he)
    have ih := mergeFilterFields paths rest segs hclean hrest hss' hsrest hnar
    show mergeFields
      ((if shouldIncludePath paths .optIn (childPath (joinCh '.' segs) k) then
        [(k, filterValue paths .optIn v (childPath (joinCh '.' segs) k))]
      else []) ++ filterObject paths .optIn rest (joinCh '.' segs))
      ((if shouldIncludePath paths .optOut (childPath (joinCh '.' segs) k) then
        [(k, filterValue paths .optOut v (childPath (joinCh '.' segs) k))]
      else []) ++ filterObject paths .optOut rest (joinCh '.' segs)) =
      (k, v) :: rest
    rw [hcur]
    by_cases hcov : CoveredSegs paths (segs ++ [k])
    · have hin : shouldIncludePath paths .optIn (joinCh '.' (segs ++ [k])) =
          true := (shouldIn_iff paths (segs ++ [k]) (by simp) hchain).2
        (Or.inl hcov)
      have hout : ¬shouldIncludePath paths .optOut (joinCh '.' (segs ++ [k])) =
          true := fun hx =>
        (shouldOut_iff paths (segs ++ [k]) (by simp) hchain).1 hx hcov
      rw [if_pos hin, if_neg hout, List.singleton_append, List.nil_append,
        filterIn_covered paths v (segs ++ [k]) hcov (by simp) hchain hv hnav,
        mergeFields_cons_left k v _ _ hltOut, ih]
    · by_cases hbe : BExtStr paths (joinCh '.' (segs ++ [k]))
      · have hin : shouldIncludePath paths .optIn (joinCh '.' (segs ++ [k])) =
            true := (shouldIn_iff paths (segs ++ [k]) (by simp) hchain).2
          (Or.inr hbe)
        have hout : shouldIncludePath paths .optOut (joinCh '.' (segs ++ [k])) =
            true := (shouldOut_iff paths (segs ++ [k]) (by simp) hchain).2 hcov
        rw [if_pos hin, if_pos hout, List.singleton_append,
          List.singleton_append, mergeFields_cons_both,
          mergeFilter paths v (segs ++ [k]) hchain hv hsv hnav, ih]
      · have hin : ¬shouldIncludePath paths .optIn (joinCh '.' (segs ++ [k])) =
            true := fun hx => by
          rcases (shouldIn_iff paths (segs ++ [k]) (by simp) hchain).1 hx with
            hc | hb
          · exact hcov hc
          · exact hbe hb
        have hout : shouldIncludePath paths .optOut (joinCh '.' (segs ++ [k])) =
            true := (shouldOut_iff paths (segs ++ [k]) (by simp) hchain).2 hcov
        rw [if_neg hin, if_pos hout, List.nil_append, List.singleton_append,
          filterOut_free paths v (segs ++ [k]) (by simp) hchain hcov hbe hv
            hnav,
          mergeFields_cons_right _ k v _ hltIn, ih]

end

theorem filter_union_merge (paths : List Str) (fields : List (Str × Json))
    (hkc : keysCleanJson (.obj fields) = true)
    (hks : keysSortedJson (.obj fields) = true)
    (hna : noArrays (.obj fields) = true) :
    mergeJson (filterJson paths .optIn (.obj fields))
      (filterJson paths .optOut (.obj fields)) = .obj fields := by
  cases paths with
  | nil => rfl
  | cons p ps =>
    unfold filterJson
    rw [if_neg (by simp), if_neg (by simp)]
    exact mergeFilter (p :: ps) (.obj fields) [] (by simp) hkc hks hna


/-! ## C3 — the two filtered trees share no leaf (under the leaf-respecting
side condition) -/

mutual

theorem filterValue_noArrays (paths : List Str) (m : FilterMode) :
    ∀ (v : Json) (p : Str), noArrays v = true →
      noArrays (filterValue paths m v p) = true
  | .null, _, _ => rfl
  | .bool _, _, _ => rfl
  | .num _, _, _ => rfl
  | .str _, _, _ => rfl
  | .arr _, _, hna => by simp [noArrays] at hna
  | .obj fields, p, hna => by
    show noArraysFields (filterObject paths m fields p) = true
    exact filterObject_noArrays paths m fields p
      (by simpa [noArrays] using hna)

theorem filterObject_noArrays (paths : List Str) (m : FilterMode) :
    ∀ (fields : List (Str × Json)) (p : Str), noArraysFields fields = true →
      noArraysFields (filterObject paths m fields p) = true
  | [], _, _ => rfl
  | (k, v) :: rest, p, hna => by
    have hna' := hna
    unfold noArraysFields at hna'
    rw [Bool.and_eq_true] at hna'
    rcases hna' with ⟨hnav, hnar⟩
    show noArraysFields ((if shouldIncludePath paths m (childPath p k) then
        [(k, filterValue paths m v (childPath p k))] else []) ++
        filterObject paths m rest p) = true
    rcases Bool.eq_false_or_eq_true (shouldIncludePath paths m (childPath p k))
      with hd | hd
    · rw [if_pos hd, List.singleton_append]
      show (noArrays (filterValue paths m v (childPath p k)) &&
        noArraysFields (filterObject paths m rest p)) = true
      rw [Bool.and_eq_true]
      exact ⟨filterValue_noArrays paths m v (childPath p k) hnav,
        filterObject_noArrays paths m rest p hnar⟩
    · have hneg : ¬shouldIncludePath paths m (childPath p k) = true := by
        simp [hd]
      rw [if_neg hneg, List.nil_append]
      exact filterObject_noArrays paths m rest p hnar

end

mutual

theorem filterValue_keysClean (paths : List Str) (m : FilterMode) :
    ∀ (v : Json) (p : Str), keysCleanJson v = true →
      keysCleanJson (filterValue paths m v p) = true
  | .null, _, _ => rfl
  | .bool _, _, _ => rfl
  | .num _, _, _ => rfl
  | .str _, _, _ => rfl
  | .arr xs, p, hkc => by
    show keysCleanArr (filterArray paths m xs p 0) = true
    exact filterArr_keysClean paths m xs p 0 (by simpa [keysCleanJson] using hkc)
  | .obj fields, p, hkc => by
    show keysCleanFields (filterObject paths m fields p) = true
    exact filterObject_keysClean paths m fields p
      (by simpa [keysCleanJson] using hkc)

theorem filterObject_keysClean (paths : List Str) (m : FilterMode) :
    ∀ (fields : List (Str × Json)) (p : Str), keysCleanFields fields = true →
      keysCleanFields (filterObject paths m fields p) = true
  | [], _, _ => rfl
  | (k, v) :: rest, p, hkc => by
    have hkc' := hkc
    unfold keysCleanFields at hkc'
    rw [Bool.and_eq_true, Bool.and_eq_true] at hkc'
    rcases hkc' with ⟨⟨hk, hv⟩, hrest⟩
    show keysCleanFields ((if shouldIncludePath paths m (childPath p k) then
        [(k, filterValue paths m v (childPath p k))] else []) ++
        filterObject paths m rest p) = true
    rcases Bool.eq_false_or_eq_true (shouldIncludePath paths m (childPath p k))
      with hd | hd
    · rw [if_pos hd, List.singleton_append]
      show ((cleanKey k && keysCleanJson (filterValue paths m v (childPath p k)))
        && keysCleanFields (filterObject paths m rest p)) = true
      rw [Bool.and_eq_true, Bool.and_eq_true]
      exact ⟨⟨hk, filterValue_keysClean paths m v (childPath p k) hv⟩,
        filterObject_keysClean paths m rest p hrest⟩
    · have hneg : ¬shouldIncludePath paths m (childPath p k) = true := by
        simp [hd]
      rw [if_neg hneg, List.nil_append]
      exact filterObject_keysClean paths m rest p hrest

theorem filterArr_keysClean (paths : List Str) (m : FilterMode) :
    ∀ (xs : List Json) (p : Str) (idx : Nat), keysCleanArr xs = true →
      keysCleanArr (filterArray paths m xs p idx) = true
  | [], _, _, _ => rfl
  | v :: rest, p, idx, hkc => by
    have hkc' := hkc
    unfold keysCleanArr at hkc'
    rw [Bool.and_eq_true] at hkc'
    rcases hkc' with ⟨hv, hrest⟩
    show keysCleanArr ((if shouldIncludePath paths m
        (p ++ '[' :: (natToStr idx ++ [']'])) then
        [filterValue paths m v (p ++ '[' :: (natToStr idx ++ [']']))]
      else []) ++ filterArray paths m rest p (idx + 1)) = true
    rcases Bool.eq_false_or_eq_true (shouldIncludePath paths m
        (p ++ '[' :: (natToStr idx ++ [']']))) with hd | hd
    · rw [if_pos hd, List.singleton_append]
      show (keysCleanJson (filterValue paths m v _) &&
        keysCleanArr (filterArray paths m rest p (idx + 1))) = true
      rw [Bool.and_eq_true]
      exact ⟨filterValue_keysClean paths m v _ hv,
        filterArr_keysClean paths m rest p (idx + 1) hrest⟩
    · have hneg : ¬shouldIncludePath paths m
          (p ++ '[' :: (natToStr idx ++ [']'])) = true := by
        simp [hd]
      rw [if_neg hneg, List.nil_append]
      exact filterArr_keysClean paths m rest p (idx + 1) hrest

end

mutual

theorem disjointChains_value (paths : List Str) :
    ∀ (v : Json) (segs ch : List Str),
      (∀ s ∈ segs, cleanKey s = true) → keysCleanJson v = true →
      keysSortedJson v = true → noArrays v = true →
      ch ∈ leafChains (filterValue paths .optIn v (joinCh '.' segs)) →
      ch ∈ leafChains (filterValue paths .optOut v (joinCh '.' segs)) →
      BExtStr paths (joinCh '.' (segs ++ ch)) ∨ ch = []
  | .null, _, ch, _, _, _, _, hIn, _ => by
    right
    simpa [filterValue, leafChains] using hIn
  | .bool _, _, ch, _, _, _, _, hIn, _ => by
    right
    simpa [filterValue, leafChains] using hIn
  | .num _, _, ch, _, _, _, _, hIn, _ => by
    right
    simpa [filterValue, leafChains] using hIn
  | .str _, _, ch, _, _, _, _, hIn, _ => by
    right
    simpa [filterValue, leafChains] using hIn
  | .arr _, _, _, _, _, _, hna, _, _ => by simp [noArrays] at hna
  | .obj fields, segs, ch, hclean, hkc, hks, hna, hIn, hOut => by
    have hks' : keysStrictSorted (fields.map Prod.fst) = true ∧
        keysSortedFields fields = true := by
      have h := hks
      unfold keysSortedJson at h
      rw [Bool.and_eq_true] at h
      exact h
    have hIn' : ch ∈ leafChainsFields
        (filterObject paths .optIn fields (joinCh '.' segs)) := hIn
    have hOut' : ch ∈ leafChainsFields
        (filterObject paths .optOut fields (joinCh '.' segs)) := hOut
    exact Or.inl (disjointChains_fields paths fields segs ch hclean
      (by simpa [keysCleanJson] using hkc) hks'.1 hks'.2
      (by simpa [noArrays] using hna) hIn' hOut')

theorem disjointChains_fields (paths : List Str) :
    ∀ (fields : List (Str × Json)) (segs ch : List Str),
      (∀ s ∈ segs, cleanKey s = true) → keysCleanFields fields = true →
      keysStrictSorted (fields.map Prod.fst) = true →
      keysSortedFields fields = true → noArraysFields fields = true →
      ch ∈ leafChainsFields
        (filterObject paths .optIn fields (joinCh '.' segs)) →
      ch ∈ leafChainsFields
        (filterObject paths .optOut fields (joinCh '.' segs)) →
      BExtStr paths (joinCh '.' (segs ++ ch))
  | [], _, ch, _, _, _, _, _, hIn, _ => by
    simp [filterObject, leafChainsFields] at hIn
  | (k, v) :: rest, segs, ch, hclean, hkc, hss, hsf, hna, hIn, hOut => by
    have hkc' := hkc
    unfold keysCleanFields at hkc'
    rw [Bool.and_eq_true, Bool.and_eq_true] at hkc'
    rcases hkc' with ⟨⟨hk, hv⟩, hrest⟩
    have hna' := hna
    unfold noArraysFields at hna'
    rw [Bool.and_eq_true] at hna'
    rcases hna' with ⟨hnav, hnar⟩
    have hsf' := hsf
    unfold keysSortedFields at hsf'
    rw [Bool.and_eq_true] at hsf'
    rcases hsf' with ⟨hsv, hsrest⟩
    have hss2 : keysStrictSorted (k :: rest.map Prod.fst) = true := hss
    have hpw := keysStrictSorted_pairwise hss2
    have hklt : ∀ x ∈ rest.map Prod.fst, lexLt k x = true :=
      (List.pairwise_cons.1 hpw).1
    have hss' : keysStrictSorted (rest.map Prod.fst) = true := by
      cases hrm : rest.map Prod.fst with
      | nil => rfl
      | cons b t =>
        rw [hrm] at hss2
        unfold keysStrictSorted at hss2
        rw [Bool.and_eq_true] at hss2
        exact hss2.2
    have hchain : ∀ s ∈ segs ++ [k], cleanKey s = true := by
      intro s hs
      rcases List.mem_append.1 hs with hs | hs
      · exact hclean s hs
      · rw [List.mem_singleton.1 hs]
        exact hk
    have hcur : childPath (joinCh '.' segs) k = joinCh '.' (segs ++ [k]) :=
      childPath_eq k hclean
    have hheadNe : ∀ (m : FilterMode) (ext : List Str), ch = k :: ext →
        ch ∈ leafChainsFields (filterObject paths m rest (joinCh '.' segs)) →
        False := by
      intro m ext hch hmem
      have hsub := leafChainsFields_filter_sub paths m rest _ ch hmem
      rcases leafChainsFields_head rest ch hsub with ⟨e, he, ext2, hch2⟩
      have hlt : lexLt k e.1 = true :=
        hklt e.1 (List.mem_map_of_mem Prod.fst he)
      rw [hch] at hch2
      have hke : k = e.1 := (List.cons.injEq _ _ _ _ ▸ hch2).1
      rw [← hke] at hlt
      rw [lexLt_irrefl k] at hlt
      exact Bool.false_ne_true hlt
    have hchgoal : ∀ ext : List Str,
        BExtStr paths (joinCh '.' (segs ++ [k] ++ ext)) →
        BExtStr paths (joinCh '.' (segs ++ k :: ext)) := by
      intro ext hb
      rw [List.append_assoc] at hb
      exact hb
    have hIn1 : ch ∈ leafChainsFields ((if shouldIncludePath paths .optIn
        (childPath (joinCh '.' segs) k) then
        [(k, filterValue paths .optIn v (childPath (joinCh '.' segs) k))]
      else []) ++ filterObject paths .optIn rest (joinCh '.' segs)) := hIn
    have hOut1 : ch ∈ leafChainsFields ((if shouldIncludePath paths .optOut
        (childPath (joinCh '.' segs) k) then
        [(k, filterValue paths .optOut v (childPath (joinCh '.' segs) k))]
      else []) ++ filterObject paths .optOut rest (joinCh '.' segs)) := hOut
    rw [hcur] at hIn1 hOut1
    by_cases hcov : CoveredSegs paths (segs ++ [k])
    · have hout : ¬shouldIncludePath paths .optOut
          (joinCh '.' (segs ++ [k])) = true := fun hx =>
        (shouldOut_iff paths (segs ++ [k]) (by simp) hchain).1 hx hcov
      rw [if_neg hout, List.nil_append] at hOut1
      have hin : shouldIncludePath paths .optIn (joinCh '.' (segs ++ [k])) =
          true := (shouldIn_iff paths (segs ++ [k]) (by simp) hchain).2
        (Or.inl hcov)
      rw [if_pos hin, List.singleton_append] at hIn1
      have hIn2 : ch ∈ (leafChains (filterValue paths .optIn v
          (joinCh '.' (segs ++ [k])))).map (fun ext => k :: ext) ++
          leafChainsFields (filterObject paths .optIn rest (joinCh '.' segs))
        := hIn1
      rcases List.mem_append.1 hIn2 with hm | hm
      · rcases List.mem_map.1 hm with ⟨ext, -, hch⟩
        exact absurd (hheadNe .optOut ext hch.symm hOut1) id
      · exact disjointChains_fields paths rest segs ch hclean hrest hss'
          hsrest hnar hm hOut1
    · by_cases hbe : BExtStr paths (joinCh '.' (segs ++ [k]))
      · have hin : shouldIncludePath paths .optIn (joinCh '.' (segs ++ [k])) =
            true := (shouldIn_iff paths (segs ++ [k]) (by simp) hchain).2
          (Or.inr hbe)
        have hout : shouldIncludePath paths .optOut
            (joinCh '.' (segs ++ [k])) = true :=
          (shouldOut_iff paths (segs ++ [k]) (by simp) hchain).2 hcov
        rw [if_pos hin, List.singleton_append] at hIn1
        rw [if_pos hout, List.singleton_append] at hOut1
        have hIn2 : ch ∈ (leafChains (filterValue paths .optIn v
            (joinCh '.' (segs ++ [k])))).map (fun ext => k :: ext) ++
            leafChainsFields (filterObject paths .optIn rest
              (joinCh '.' segs)) := hIn1
        have hOut2 : ch ∈ (leafChains (filterValue paths .optOut v
            (joinCh '.' (segs ++ [k])))).map (fun ext => k :: ext) ++
            leafChainsFields (filterObject paths .optOut rest
              (joinCh '.' segs)) := hOut1
        rcases List.mem_append.1 hIn2 with hmI | hmI
        · rcases List.mem_map.1 hmI with ⟨extI, hextI, hchI⟩
          rcases List.mem_append.1 hOut2 with hmO | hmO
          · rcases List.mem_map.1 hmO with ⟨extO, hextO, hchO⟩
            have hexteq : extI = extO := by
              rw [← hchO] at hchI
              exact (List.cons.injEq _ _ _ _ ▸ hchI).2
            rw [hexteq] at hextI
            rcases disjointChains_value paths v (segs ++ [k]) extO hchain hv
              hsv hnav hextI hextO with hb | hnil
            · rw [← hchO]
              exact hchgoal extO hb
            · rw [← hchO, hnil]
              simpa using hbe
          · exact absurd (hheadNe .optOut extI hchI.symm hmO) id
        · rcases List.mem_append.1 hOut2 with hmO | hmO
          · rcases List.mem_map.1 hmO with ⟨extO, -, hchO⟩
            exact absurd (hheadNe .optIn extO hchO.symm hmI) id
          · exact disjointChains_fields paths rest segs ch hclean hrest hss'
              hsrest hnar hmI hmO
      · have hin : ¬shouldIncludePath paths .optIn
            (joinCh '.' (segs ++ [k])) = true := fun hx => by
          rcases (shouldIn_iff paths (segs ++ [k]) (by simp) hchain).1 hx with
            hc | hb
          · exact hcov hc
          · exact hbe hb
        have hout : shouldIncludePath paths .optOut
            (joinCh '.' (segs ++ [k])) = true :=
          (shouldOut_iff paths (segs ++ [k]) (by simp) hchain).2 hcov
        rw [if_neg hin, List.nil_append] at hIn1
        rw [if_pos hout, List.singleton_append] at hOut1
        have hOut2 : ch ∈ (leafChains (filterValue paths .optOut v
            (joinCh '.' (segs ++ [k])))).map (fun ext => k :: ext) ++
            leafChainsFields (filterObject paths .optOut rest
              (joinCh '.' segs)) := hOut1
        rcases List.mem_append.1 hOut2 with hmO | hmO
        · rcases List.mem_map.1 hmO with ⟨extO, -, hchO⟩
          exact absurd (hheadNe .optIn extO hchO.symm hIn1) id
        · exact disjointChains_fields paths rest segs ch hclean hrest hss'
            hsrest hnar hIn1 hmO

end


theorem filter_leaf_disjoint (paths : List Str) (fields : List (Str × Json))
    (hkc : keysCleanJson (.obj fields) = true)
    (hks : keysSortedJson (.obj fields) = true)
    (hna : noArrays (.obj fields) = true)
    (hresp : pathsRespectLeaves paths (.obj fields) = true)
    (p : Str)
    (hpIn : p ∈ leafPaths (filterJson paths .optIn (.obj fields)) [])
    (hpOut : p ∈ leafPaths (filterJson paths .optOut (.obj fields)) []) :
    False := by
  cases paths with
  | nil =>
    simp [filterJson, leafPaths, leafPathsFields] at hpIn
  | cons q qs =>
    have hsetI : filterJson (q :: qs) .optIn (.obj fields) =
        filterValue (q :: qs) .optIn (.obj fields) [] := by
      unfold filterJson
      rw [if_neg (by simp)]
    have hsetO : filterJson (q :: qs) .optOut (.obj fields) =
        filterValue (q :: qs) .optOut (.obj fields) [] := by
      unfold filterJson
      rw [if_neg (by simp)]
    rw [hsetI] at hpIn
    rw [hsetO] at hpOut
    have hnaI : noArrays (filterValue (q :: qs) .optIn (.obj fields) []) =
        true := filterValue_noArrays (q :: qs) .optIn (.obj fields) [] hna
    have hkcI : keysCleanJson (filterValue (q :: qs) .optIn (.obj fields) [])
        = true := filterValue_keysClean (q :: qs) .optIn (.obj fields) [] hkc
    have hnaO : noArrays (filterValue (q :: qs) .optOut (.obj fields) []) =
        true := filterValue_noArrays (q :: qs) .optOut (.obj fields) [] hna
    have hkcO : keysCleanJson (filterValue (q :: qs) .optOut (.obj fields) [])
        = true := filterValue_keysClean (q :: qs) .optOut (.obj fields) [] hkc
    have hpIn2 : p ∈ (leafChains (filterValue (q :: qs) .optIn (.obj fields)
        [])).map fun ch => joinCh '.' ([] ++ ch) := by
      rw [← leafPaths_eq_chains (filterValue (q :: qs) .optIn (.obj fields) [])
        [] hnaI hkcI (by simp)]
      exact hpIn
    have hpOut2 : p ∈ (leafChains (filterValue (q :: qs) .optOut (.obj fields)
        [])).map fun ch => joinCh '.' ([] ++ ch) := by
      rw [← leafPaths_eq_chains (filterValue (q :: qs) .optOut (.obj fields)
        []) [] hnaO hkcO (by simp)]
      exact hpOut
    rcases List.mem_map.1 hpIn2 with ⟨chI, hchI, hpI⟩
    rcases List.mem_map.1 hpOut2 with ⟨chO, hchO, hpO⟩
    rw [List.nil_append] at hpI hpO
    have horigI : chI ∈ leafChains (Json.obj fields) :=
      leafChains_filter_sub (q :: qs) .optIn (.obj fields) [] chI hchI
    have horigO : chO ∈ leafChains (Json.obj fields) :=
      leafChains_filter_sub (q :: qs) .optOut (.obj fields) [] chO hchO
    have horigI' : chI ∈ leafChainsFields fields := horigI
    have horigO' : chO ∈ leafChainsFields fields := horigO
    have hcleanI : ∀ s ∈ chI, cleanKey s = true :=
      leafChains_clean (.obj fields) hkc chI horigI
    have hcleanO : ∀ s ∈ chO, cleanKey s = true :=
      leafChains_clean (.obj fields) hkc chO horigO
    rcases leafChainsFields_head fields chI horigI' with ⟨eI, -, extI, hchIeq⟩
    rcases leafChainsFields_head fields chO horigO' with ⟨eO, -, extO, hchOeq⟩
    have hneI : chI ≠ [] := by
      rw [hchIeq]
      simp
    have hneO : chO ≠ [] := by
      rw [hchOeq]
      simp
    have hcheq : chI = chO := by
      have h1 : splitCh '.' (joinCh '.' chI) = chI :=
        splitCh_joinCh '.' chI hneI
          (fun s hs => (cleanKey_spec (hcleanI s hs)).2.1)
      have h2 : splitCh '.' (joinCh '.' chO) = chO :=
        splitCh_joinCh '.' chO hneO
          (fun s hs => (cleanKey_spec (hcleanO s hs)).2.1)
      calc chI = splitCh '.' (joinCh '.' chI) := h1.symm
        _ = splitCh '.' p := by rw [hpI]
        _ = splitCh '.' (joinCh '.' chO) := by rw [hpO]
        _ = chO := h2
    have hks2 : keysStrictSorted (fields.map Prod.fst) = true ∧
        keysSortedFields fields = true := by
      have h := hks
      unfold keysSortedJson at h
      rw [Bool.and_eq_true] at h
      exact h
    have hmemI : chI ∈ leafChainsFields
        (filterObject (q :: qs) .optIn fields (joinCh '.' ([] : List Str))) :=
      hchI
    have hmemO : chI ∈ leafChainsFields
        (filterObject (q :: qs) .optOut fields (joinCh '.' ([] : List Str)))
      := by
      rw [hcheq]
      exact hchO
    have hbe := disjointChains_fields (q :: qs) fields [] chI (by simp)
      (by simpa [keysCleanJson] using hkc) hks2.1 hks2.2
      (by simpa [noArrays] using hna) hmemI hmemO
    rw [List.nil_append] at hbe
    rcases hbe with ⟨ip, hip, hsb⟩
    have hporig : p ∈ leafPaths (.obj fields) (joinCh '.' ([] : List Str)) :=
      by
      rw [leafPaths_eq_chains (.obj fields) [] hna hkc (by simp)]
      refine List.mem_map.2 ⟨chI, horigI, ?_⟩
      rw [List.nil_append]
      exact hpI
    have hresp' := hresp
    unfold pathsRespectLeaves at hresp'
    rw [List.all_eq_true] at hresp'
    have h3 := hresp' ip hip
    rw [List.all_eq_true] at h3
    have h4 := h3 p hporig
    rw [Bool.not_eq_true'] at h4
    rw [hpI] at hsb
    rw [h4] at hsb
    exact Bool.false_ne_true hsb

/-- C3 (counterexample). The spec claims the opt-in and opt-out filterings of
an array-free tree are always leaf-disjoint; but with the path set
`{"a.b"}` and the tree `{"a": 5}` — a configured path reaching
strictly below a scalar leaf — both filterings keep the leaf `"a"`. -/
theorem c3_counterexample :
    (leafPaths (filterJson [['a', '.', 'b']] .optIn
      (Json.obj [(['a'], Json.num 5)])) []).contains ['a'] = true ∧
    (leafPaths (filterJson [['a', '.', 'b']] .optOut
      (Json.obj [(['a'], Json.num 5)])) []).contains ['a'] = true := by
  constructor
  · rfl
  · rfl

/-- C3: for every path set P and array-free JSON object tree T with clean,
strictly sorted keys (the invariant of `serde_json` maps and dot-addressable
configs), the recursive merge of the opt-in and the opt-out filtering of T
rebuilds T exactly; and — under the amendment's side condition that no
configured path reaches strictly below a scalar leaf of T — no leaf path
appears in both filterings. -/
theorem c3_filter_complementarity (paths : List Str)
    (fields : List (Str × Json))
    (hkc : keysCleanJson (.obj fields) = true)
    (hks : keysSortedJson (.obj fields) = true)
    (hna : noArrays (.obj fields) = true) :
    mergeJson (filterJson paths .optIn (.obj fields))
      (filterJson paths .optOut (.obj fields)) = .obj fields ∧
    (pathsRespectLeaves paths (.obj fields) = true →
      ∀ p : Str, p ∈ leafPaths (filterJson paths .optIn (.obj fields)) [] →
        p ∈ leafPaths (filterJson paths .optOut (.obj fields)) [] → False) :=
  ⟨filter_union_merge paths fields hkc hks hna,
   fun hresp p hpIn hpOut =>
     filter_leaf_disjoint paths fields hkc hks hna hresp p hpIn hpOut⟩

/-- Witness: the complementarity theorem applied to the path set
`{"a.b"}` and the tree `{"a": {"b": 1, "c": 2}}`. -/
theorem c3_filter_complementarity_witness :
    (keysCleanJson (Json.obj [(['a'], Json.obj [(['b'], Json.num 1),
        (['c'], Json.num 2)])]) = true ∧
      keysSortedJson (Json.obj [(['a'], Json.obj [(['b'], Json.num 1),
        (['c'], Json.num 2)])]) = true ∧
      noArrays (Json.obj [(['a'], Json.obj [(['b'], Json.num 1),
        (['c'], Json.num 2)])]) = true) ∧
    mergeJson
      (filterJson [['a', '.', 'b']] .optIn (Json.obj [(['a'],
        Json.obj [(['b'], Json.num 1), (['c'], Json.num 2)])]))
      (filterJson [['a', '.', 'b']] .optOut (Json.obj [(['a'],
        Json.obj [(['b'], Json.num 1), (['c'], Json.num 2)])])) =
      Json.obj [(['a'], Json.obj [(['b'], Json.num 1), (['c'], Json.num 2)])]
    := ⟨⟨by decide, by decide, by decide⟩,
      (c3_filter_complementarity [['a', '.', 'b']]
        [(['a'], Json.obj [(['b'], Json.num 1), (['c'], Json.num 2)])]
        (by decide) (by decide) (by decide)).1⟩

end PiholeSync
